import Mathlib

/-!
Shallow embedding of the clox interpreter (jamestjw/lox, src/clox) in Lean 4,
used to check the natural-language specification against the code.

Conventions:
* C pointers to interned strings become `ObjString` values carrying an identity
  (`sid`, the pointer), the byte contents, and the precomputed FNV-1a hash.
  Pointer equality on interned strings is structural equality here.
* The open-addressed hash table of table.c is modelled verbatim: an entry array
  (`List Entry`), tombstones (`key = none`, non-nil value), linear probing with
  wrap-around, 0.75 load factor, and power-of-two-ish growth.  The C probe loop
  terminates only when the table has a free slot; the Lean rendering uses
  `capacity` probes of fuel, which is exactly the number of distinct slots the
  probe sequence visits, and returns `none` where the C loop would not return.
* Machine arithmetic: the 32-bit FNV-1a hash is computed modulo 2 ^ 32.
-/

namespace Clox

/-- An interned string object (ObjString of object.h): identity of the heap
pointer, byte contents, and the precomputed hash. -/
structure ObjString where
  sid : Nat
  chars : List Nat
  hash : Nat
deriving DecidableEq, Repr

mutual

/-- Runtime Value (value.h): nil, boolean, number, or heap object. -/
inductive Value where
  | nil : Value
  | boolean : Bool → Value
  | number : Int → Value
  | obj : ObjPayload → Value

/-- Payload of a heap object reference as used by the VM.  Function bodies,
classes and instances are referenced through numeric identities; a bound
method carries its receiver Value and its method closure. -/
inductive ObjPayload where
  | str : ObjString → ObjPayload
  | function : (arity : Nat) → (fid : Nat) → ObjPayload
  | native : (fid : Nat) → ObjPayload
  | closure : (arity : Nat) → (fid : Nat) → ObjPayload
  | upvalue : (uid : Nat) → ObjPayload
  | klass : (cid : Nat) → ObjPayload
  | inst : (iid : Nat) → (cid : Nat) → ObjPayload
  | boundMethod : (receiver : Value) → (marity : Nat) → (mfid : Nat) → ObjPayload

end

/-- IS_NIL of value.h. -/
def isNilValue : Value → Bool
  | Value.nil => true
  | _ => false

/-- One slot of the hash table (Entry of table.h). -/
structure Entry where
  key : Option ObjString
  value : Value

/-- A slot with no key and nil value: genuinely empty (not a tombstone). -/
def emptyEntry : Entry := ⟨none, Value.nil⟩

/-- A slot is free when its key is NULL and its value is nil; a NULL key with a
non-nil value is a tombstone. -/
def Entry.isFree (e : Entry) : Bool := e.key.isNone && isNilValue e.value

/-- The hash table of table.h: entry count (live entries plus tombstones),
capacity, and the entry array. -/
structure Table where
  count : Nat
  capacity : Nat
  entries : List Entry

/-- initTable of table.c. -/
def initTable : Table := ⟨0, 0, []⟩

/-- findEntry of table.c, one probe step at a time.  `tombstone` is the first
tombstone slot met so far.  The fuel counts remaining probes; the C loop is
infinite, and `none` marks the (unreachable under the table invariant)
situation where it would cycle forever. -/
def findEntryAux (entries : List Entry) (capacity : Nat) (key : ObjString) :
    Nat → Nat → Option Nat → Option Nat
  | 0, _, _ => none
  | fuel + 1, index, tombstone =>
    let e := entries.getD index emptyEntry
    match e.key with
    | none =>
      match e.value with
      | Value.nil => some (tombstone.getD index)
      | _ =>
        findEntryAux entries capacity key fuel ((index + 1) % capacity)
          (if tombstone.isSome then tombstone else some index)
    | some k =>
      if k = key then some index
      else findEntryAux entries capacity key fuel ((index + 1) % capacity) tombstone

/-- findEntry of table.c: probe from hash % capacity.  The C code never probes
an empty array (its callers return early or grow first); the capacity-zero
guard only totalizes that situation. -/
def findEntry (t : Table) (key : ObjString) : Option Nat :=
  if t.capacity = 0 then none
  else findEntryAux t.entries t.capacity key t.capacity (key.hash % t.capacity) none

/-- tableGet of table.c. -/
def tableGet (t : Table) (key : ObjString) : Option Value :=
  if t.count = 0 then none
  else
    match findEntry t key with
    | none => none
    | some i =>
      let e := t.entries.getD i emptyEntry
      match e.key with
      | none => none
      | some _ => some e.value

/-- GROW_CAPACITY of memory.h. -/
def growCapacity (c : Nat) : Nat := if c < 8 then 8 else c * 2

/-- One insertion of adjustCapacity's copy loop: find the slot for the key in
the fresh array and write the pair there. -/
def rawInsertEntry (entries : List Entry) (capacity : Nat) (k : ObjString) (v : Value) :
    List Entry :=
  match findEntryAux entries capacity k capacity (k.hash % capacity) none with
  | some i => entries.set i ⟨some k, v⟩
  | none => entries

/-- One iteration of adjustCapacity's copy loop: skip NULL keys, re-insert the
rest, counting the re-inserted entries. -/
def adjustStep (capacity : Nat) (acc : List Entry × Nat) (e : Entry) : List Entry × Nat :=
  match e.key with
  | none => acc
  | some k => (rawInsertEntry acc.1 capacity k e.value, acc.2 + 1)

/-- adjustCapacity of table.c: re-insert every non-NULL key into a fresh array,
recounting entries (tombstones are dropped). -/
def adjustCapacity (t : Table) (capacity : Nat) : Table :=
  let start : List Entry × Nat := (List.replicate capacity emptyEntry, 0)
  let result := t.entries.foldl (adjustStep capacity) start
  ⟨result.2, capacity, result.1⟩

/-- tableSet of table.c.  Grows when count + 1 would exceed the 0.75 load
factor (capacities are 0 or powers of two at least 8, for which the C double
comparison count + 1 > capacity * 0.75 is exactly this integer comparison).
Returns the updated table and isNewKey. -/
def tableSet (t : Table) (key : ObjString) (value : Value) : Table × Bool :=
  let t := if t.count + 1 > 3 * t.capacity / 4 then adjustCapacity t (growCapacity t.capacity)
           else t
  match findEntry t key with
  | none => (t, false)
  | some i =>
    let e := t.entries.getD i emptyEntry
    let isNewKey := e.key.isNone
    let count := if isNewKey && isNilValue e.value then t.count + 1 else t.count
    (⟨count, t.capacity, t.entries.set i ⟨some key, value⟩⟩, isNewKey)

/-- tableDelete of table.c: overwrite the slot with a tombstone
(NULL key, value true); count is not decremented. -/
def tableDelete (t : Table) (key : ObjString) : Table × Bool :=
  if t.count = 0 then (t, false)
  else
    match findEntry t key with
    | none => (t, false)
    | some i =>
      let e := t.entries.getD i emptyEntry
      match e.key with
      | none => (t, false)
      | some _ => (⟨t.count, t.capacity, t.entries.set i ⟨none, Value.boolean true⟩⟩, true)

/-- tableFindString of table.c, one probe step at a time: stops with `none` at
the first genuinely free slot, skips tombstones, and compares keys by length,
hash and bytes rather than by pointer. -/
def tableFindStringAux (entries : List Entry) (capacity : Nat) (chars : List Nat) (hash : Nat) :
    Nat → Nat → Option ObjString
  | 0, _ => none
  | fuel + 1, index =>
    let e := entries.getD index emptyEntry
    match e.key with
    | none =>
      match e.value with
      | Value.nil => none
      | _ => tableFindStringAux entries capacity chars hash fuel ((index + 1) % capacity)
    | some k =>
      if k.chars.length = chars.length ∧ k.hash = hash ∧ k.chars = chars then some k
      else tableFindStringAux entries capacity chars hash fuel ((index + 1) % capacity)

/-- tableFindString of table.c. -/
def tableFindString (t : Table) (chars : List Nat) (hash : Nat) : Option ObjString :=
  if t.count = 0 then none
  else tableFindStringAux t.entries t.capacity chars hash t.capacity (hash % t.capacity)


/-! ### Probe arithmetic and the open-addressing invariant -/

/-- Slot reached after `d` linear-probe steps from `start`. -/
def probeAt (capacity start d : Nat) : Nat := (start + d) % capacity

/-- Number of probe steps from `start` to slot `i` (both below `capacity`). -/
def probeDist (capacity start i : Nat) : Nat := (i + capacity - start) % capacity

theorem probeAt_lt {capacity : Nat} (hcap : 0 < capacity) (start d : Nat) :
    probeAt capacity start d < capacity := Nat.mod_lt _ hcap

theorem probeDist_lt {capacity : Nat} (hcap : 0 < capacity) (start i : Nat) :
    probeDist capacity start i < capacity := Nat.mod_lt _ hcap

theorem probeAt_probeDist {capacity start i : Nat} (hstart : start < capacity)
    (hi : i < capacity) : probeAt capacity start (probeDist capacity start i) = i := by
  unfold probeAt probeDist
  rcases le_or_lt start i with h | h
  · have h1 : i + capacity - start = capacity + (i - start) := by omega
    rw [h1, Nat.add_mod_left, Nat.mod_eq_of_lt (show i - start < capacity by omega)]
    have h2 : start + (i - start) = i := by omega
    rw [h2, Nat.mod_eq_of_lt hi]
  · have h1 : i + capacity - start < capacity := by omega
    rw [Nat.mod_eq_of_lt h1]
    have h2 : start + (i + capacity - start) = capacity + i := by omega
    rw [h2, Nat.add_mod_left, Nat.mod_eq_of_lt hi]

theorem probeDist_probeAt {capacity start d : Nat} (hstart : start < capacity)
    (hd : d < capacity) : probeDist capacity start (probeAt capacity start d) = d := by
  unfold probeAt probeDist
  rcases Nat.lt_or_ge (start + d) capacity with h | h
  · rw [Nat.mod_eq_of_lt h]
    have h2 : start + d + capacity - start = capacity + d := by omega
    rw [h2, Nat.add_mod_left, Nat.mod_eq_of_lt hd]
  · have hmod : (start + d) % capacity = start + d - capacity := by
      rw [Nat.mod_eq_sub_mod h]
      exact Nat.mod_eq_of_lt (by omega)
    rw [hmod]
    have h2 : start + d - capacity + capacity - start = d := by omega
    rw [h2, Nat.mod_eq_of_lt hd]

theorem probeAt_inj {capacity start d1 d2 : Nat} (hstart : start < capacity)
    (h1 : d1 < capacity) (h2 : d2 < capacity)
    (h : probeAt capacity start d1 = probeAt capacity start d2) : d1 = d2 := by
  have e1 := probeDist_probeAt hstart h1
  have e2 := probeDist_probeAt hstart h2
  rw [← e1, ← e2, h]

theorem probeAt_succ (capacity start d : Nat) :
    (probeAt capacity start d + 1) % capacity = probeAt capacity start (d + 1) := by
  unfold probeAt
  rw [Nat.mod_add_mod, Nat.add_assoc]

/-- Keys occupy pairwise distinct slots (at most one slot per interned key). -/
def UniqKeys (entries : List Entry) (capacity : Nat) : Prop :=
  ∀ i j, i < capacity → j < capacity → i ≠ j → ∀ k : ObjString,
    (entries.getD i emptyEntry).key = some k → (entries.getD j emptyEntry).key ≠ some k

/-- Every stored key is reachable from its hash bucket without crossing a
genuinely free slot: the fundamental linear-probing invariant. -/
def ProbeChains (entries : List Entry) (capacity : Nat) : Prop :=
  ∀ i, i < capacity → ∀ k : ObjString, (entries.getD i emptyEntry).key = some k →
    ∀ d, d < probeDist capacity (k.hash % capacity) i →
      (entries.getD (probeAt capacity (k.hash % capacity) d) emptyEntry).isFree = false

/-- Well-formedness of a table.c table, as maintained by initTable, tableSet
and tableDelete. -/
structure TableWF (t : Table) : Prop where
  len_eq : t.entries.length = t.capacity
  count_eq : t.count = t.entries.countP (fun e => !e.isFree)
  count_le : t.count ≤ 3 * t.capacity / 4
  uniq : UniqKeys t.entries t.capacity
  chain : ProbeChains t.entries t.capacity

/-- The pair (k, v) is stored in some slot of the entry array. -/
def HasPair (entries : List Entry) (k : ObjString) (v : Value) : Prop :=
  ∃ i, i < entries.length ∧ entries.getD i emptyEntry = ⟨some k, v⟩

theorem tableWF_init : TableWF initTable := by
  refine ⟨rfl, rfl, Nat.le_refl 0, ?_, ?_⟩
  · intro i j hi; exact absurd hi (Nat.not_lt_zero i)
  · intro i hi; exact absurd hi (Nat.not_lt_zero i)

/-! ### Helper lemmas about entries and slots -/

theorem isNilValue_iff {v : Value} : isNilValue v = true ↔ v = Value.nil := by
  cases v <;> simp [isNilValue]

theorem isFree_iff {e : Entry} : e.isFree = true ↔ e.key = none ∧ e.value = Value.nil := by
  unfold Entry.isFree
  rw [Bool.and_eq_true, Option.isNone_iff_eq_none, isNilValue_iff]

theorem isFree_false_of_key {e : Entry} {k : ObjString} (h : e.key = some k) :
    e.isFree = false := by
  unfold Entry.isFree
  rw [h]
  rfl

theorem value_ne_nil_of_not_free {e : Entry} (hkey : e.key = none) (hfree : e.isFree = false) :
    e.value ≠ Value.nil := by
  intro hv
  rw [isFree_iff.mpr ⟨hkey, hv⟩] at hfree
  exact absurd hfree (by simp)

theorem getD_set_self {l : List Entry} {i : Nat} (h : i < l.length) (a : Entry) :
    (l.set i a).getD i emptyEntry = a := by
  rw [List.getD_eq_getElem?_getD, List.getElem?_set_self h]
  rfl

theorem getD_set_ne {l : List Entry} {i j : Nat} (h : i ≠ j) (a : Entry) :
    (l.set i a).getD j emptyEntry = l.getD j emptyEntry := by
  rw [List.getD_eq_getElem?_getD, List.getElem?_set_ne h, ← List.getD_eq_getElem?_getD]

theorem getD_eq_getElem {l : List Entry} {i : Nat} (h : i < l.length) :
    l.getD i emptyEntry = l[i] := by
  rw [List.getD_eq_getElem?_getD, List.getElem?_eq_getElem h]
  rfl

/-! ### Behaviour of the findEntry probe walk -/

/-- Soundness: any index findEntryAux returns is in range, and its slot either
has a NULL key or holds exactly the probed key. -/
theorem findEntryAux_sound {entries : List Entry} {capacity : Nat} {key : ObjString}
    (hcap : 0 < capacity) :
    ∀ fuel index tombstone, index < capacity →
      (∀ tIdx, tombstone = some tIdx →
        tIdx < capacity ∧ (entries.getD tIdx emptyEntry).key = none) →
      ∀ j, findEntryAux entries capacity key fuel index tombstone = some j →
        j < capacity ∧
          ((entries.getD j emptyEntry).key = none ∨ (entries.getD j emptyEntry).key = some key) := by
  intro fuel
  induction fuel with
  | zero =>
    intro index tombstone _ _ j h
    simp [findEntryAux] at h
  | succ n ih =>
    intro index tombstone hidx htomb j h
    rw [findEntryAux] at h
    rcases hk : (entries.getD index emptyEntry).key with _ | k
    · rcases hv : (entries.getD index emptyEntry).value with _ | b | q | o
      · simp only [hk, hv] at h
        obtain rfl : tombstone.getD index = j := by exact Option.some.inj h
        rcases htombcase : tombstone with _ | tIdx
        · subst htombcase
          simp only [Option.getD_none] at *
          exact ⟨hidx, Or.inl hk⟩
        · obtain ⟨h1, h2⟩ := htomb tIdx htombcase
          subst htombcase
          simp only [Option.getD_some] at *
          exact ⟨h1, Or.inl h2⟩
      all_goals
        simp only [hk, hv] at h
        refine ih _ _ (Nat.mod_lt _ hcap) ?_ j h
        intro tIdx ht
        by_cases hts : tombstone.isSome
        · rw [if_pos hts] at ht
          exact htomb tIdx ht
        · rw [if_neg hts] at ht
          obtain rfl : index = tIdx := Option.some.inj ht
          exact ⟨hidx, hk⟩
    · simp only [hk] at h
      by_cases heq : k = key
      · rw [if_pos heq] at h
        obtain rfl : index = j := Option.some.inj h
        subst heq
        exact ⟨hidx, Or.inr hk⟩
      · rw [if_neg heq] at h
        exact ih _ _ (Nat.mod_lt _ hcap) htomb j h

/-- Completeness for a stored key: probing for a key that occupies slot `i`
reaches slot `i` and returns it, for any tombstone accumulator. -/
theorem findEntryAux_found {entries : List Entry} {capacity : Nat} {k : ObjString}
    (hcap : 0 < capacity)
    {i : Nat} (hi : i < capacity) (hk : (entries.getD i emptyEntry).key = some k)
    (huniq : ∀ j, j < capacity → j ≠ i → (entries.getD j emptyEntry).key ≠ some k)
    (hchain : ∀ d, d < probeDist capacity (k.hash % capacity) i →
      (entries.getD (probeAt capacity (k.hash % capacity) d) emptyEntry).isFree = false) :
    ∀ n d0 tombstone fuel, d0 + n = probeDist capacity (k.hash % capacity) i → n < fuel →
      findEntryAux entries capacity k fuel (probeAt capacity (k.hash % capacity) d0) tombstone
        = some i := by
  have hstart : k.hash % capacity < capacity := Nat.mod_lt _ hcap
  intro n
  induction n with
  | zero =>
    intro d0 tombstone fuel hd hfuel
    obtain ⟨m, rfl⟩ : ∃ m, fuel = m + 1 := ⟨fuel - 1, by omega⟩
    have hd0 : d0 = probeDist capacity (k.hash % capacity) i := by omega
    have hAt : probeAt capacity (k.hash % capacity) d0 = i := by
      rw [hd0]
      exact probeAt_probeDist hstart hi
    rw [hAt, findEntryAux]
    simp only [hk]
    simp
  | succ n ih =>
    intro d0 tombstone fuel hd hfuel
    obtain ⟨m, rfl⟩ : ∃ m, fuel = m + 1 := ⟨fuel - 1, by omega⟩
    have hDlt : probeDist capacity (k.hash % capacity) i < capacity := probeDist_lt hcap _ _
    have hd0D : d0 < probeDist capacity (k.hash % capacity) i := by omega
    have hnotfree := hchain d0 hd0D
    have hne : probeAt capacity (k.hash % capacity) d0 ≠ i := by
      intro hcontr
      have hAtD := probeAt_probeDist hstart hi
      have heq : d0 = probeDist capacity (k.hash % capacity) i := by
        refine probeAt_inj hstart (by omega) hDlt ?_
        rw [hcontr, hAtD]
      omega
    rw [findEntryAux]
    rcases hkey : (entries.getD (probeAt capacity (k.hash % capacity) d0) emptyEntry).key
      with _ | k2
    · rcases hval : (entries.getD (probeAt capacity (k.hash % capacity) d0) emptyEntry).value
        with _ | b | q | o
      · exact absurd (isFree_iff.mpr ⟨hkey, hval⟩) (by rw [hnotfree]; simp)
      all_goals
        simp only [hkey, hval, probeAt_succ]
        exact ih (d0 + 1) _ m (by omega) (by omega)
    · have hk2 : k2 ≠ k := by
        intro hcontr
        exact huniq _ (probeAt_lt hcap _ _) hne (hcontr ▸ hkey)
      simp only [hkey]
      rw [if_neg hk2, probeAt_succ]
      exact ih (d0 + 1) _ m (by omega) (by omega)

/-- Completeness for an absent key: probing for a key not in the table stops at
the first tombstone of the probe sequence (or at its first free slot), and the
returned slot always has a NULL key. -/
theorem findEntryAux_absent {entries : List Entry} {capacity : Nat} {k : ObjString}
    (hcap : 0 < capacity)
    (habs : ∀ j, j < capacity → (entries.getD j emptyEntry).key ≠ some k)
    {F : Nat}
    (hFfree : (entries.getD (probeAt capacity (k.hash % capacity) F) emptyEntry).isFree = true)
    (hFmin : ∀ d, d < F →
      (entries.getD (probeAt capacity (k.hash % capacity) d) emptyEntry).isFree = false) :
    ∀ n d0 tombstone fuel, d0 + n = F → n < fuel →
      (tombstone = none ∨ ∃ dt, dt < d0 ∧
        tombstone = some (probeAt capacity (k.hash % capacity) dt) ∧
        (entries.getD (probeAt capacity (k.hash % capacity) dt) emptyEntry).key = none) →
      ∃ dj, dj ≤ F ∧
        findEntryAux entries capacity k fuel (probeAt capacity (k.hash % capacity) d0) tombstone
          = some (probeAt capacity (k.hash % capacity) dj) ∧
        (entries.getD (probeAt capacity (k.hash % capacity) dj) emptyEntry).key = none := by
  intro n
  induction n with
  | zero =>
    intro d0 tombstone fuel hd hfuel htomb
    obtain ⟨m, rfl⟩ : ∃ m, fuel = m + 1 := ⟨fuel - 1, by omega⟩
    obtain rfl : d0 = F := by omega
    obtain ⟨hkey, hval⟩ := isFree_iff.mp hFfree
    rw [findEntryAux]
    simp only [hkey, hval]
    rcases htomb with rfl | ⟨dt, hdt, rfl, hdtkey⟩
    · exact ⟨d0, Nat.le_refl d0, rfl, hkey⟩
    · exact ⟨dt, by omega, rfl, hdtkey⟩
  | succ n ih =>
    intro d0 tombstone fuel hd hfuel htomb
    obtain ⟨m, rfl⟩ : ∃ m, fuel = m + 1 := ⟨fuel - 1, by omega⟩
    have hd0F : d0 < F := by omega
    have hnotfree := hFmin d0 hd0F
    rw [findEntryAux]
    rcases hkey : (entries.getD (probeAt capacity (k.hash % capacity) d0) emptyEntry).key
      with _ | k2
    · rcases hval : (entries.getD (probeAt capacity (k.hash % capacity) d0) emptyEntry).value
        with _ | b | q | o
      · exact absurd (isFree_iff.mpr ⟨hkey, hval⟩) (by rw [hnotfree]; simp)
      all_goals
        simp only [hkey, hval, probeAt_succ]
        refine ih (d0 + 1) _ m (by omega) (by omega) ?_
        rcases htomb with rfl | ⟨dt, hdt, rfl, hdtkey⟩
        · refine Or.inr ⟨d0, by omega, ?_, hkey⟩
          simp
        · refine Or.inr ⟨dt, by omega, ?_, hdtkey⟩
          simp
    · have hk2 : k2 ≠ k := by
        intro hcontr
        exact habs _ (probeAt_lt hcap _ _) (hcontr ▸ hkey)
      simp only [hkey]
      rw [if_neg hk2, probeAt_succ]
      refine ih (d0 + 1) _ m (by omega) (by omega) ?_
      rcases htomb with rfl | ⟨dt, hdt, rfl, hdtkey⟩
      · exact Or.inl rfl
      · exact Or.inr ⟨dt, by omega, rfl, hdtkey⟩

/-! ### findEntry and tableGet characterizations -/

theorem exists_free_slot {t : Table} (hwf : TableWF t) (hcap : 0 < t.capacity) :
    ∃ j, j < t.capacity ∧ (t.entries.getD j emptyEntry).isFree = true := by
  by_contra hcon
  push_neg at hcon
  have hall : ∀ e ∈ t.entries, (!e.isFree) = true := by
    intro e he
    obtain ⟨i, hlt, rfl⟩ := List.mem_iff_getElem.mp he
    have hi : i < t.capacity := by rw [← hwf.len_eq]; exact hlt
    have := hcon i hi
    rw [getD_eq_getElem hlt] at this
    simp only [Bool.not_eq_true] at *
    simp [this]
  have hfull : t.entries.countP (fun e => !e.isFree) = t.entries.length :=
    List.countP_eq_length.mpr hall
  have hcount := hwf.count_eq
  have hle := hwf.count_le
  rw [hfull, hwf.len_eq] at hcount
  omega

theorem capacity_pos_of_count {t : Table} (hwf : TableWF t) (hcount : t.count ≠ 0) :
    0 < t.capacity := by
  have h1 := hwf.count_eq
  have h2 : t.entries.countP (fun e => !e.isFree) ≤ t.entries.length :=
    List.countP_le_length _
  have h3 := hwf.len_eq
  omega

/-- findEntry finds the slot of a stored key. -/
theorem findEntry_found {t : Table} (hwf : TableWF t) {i : Nat} {k : ObjString}
    (hi : i < t.capacity) (hk : (t.entries.getD i emptyEntry).key = some k) :
    findEntry t k = some i := by
  have hcap : 0 < t.capacity := by omega
  have hstart : k.hash % t.capacity < t.capacity := Nat.mod_lt _ hcap
  have h0 : probeAt t.capacity (k.hash % t.capacity) 0 = k.hash % t.capacity := by
    unfold probeAt
    rw [Nat.add_zero, Nat.mod_eq_of_lt hstart]
  unfold findEntry
  rw [if_neg (by omega)]
  have := findEntryAux_found hcap hi hk
    (fun j hj hji => hwf.uniq i j hi hj (Ne.symm hji) k hk)
    (hwf.chain i hi k hk)
    (probeDist t.capacity (k.hash % t.capacity) i) 0 none t.capacity
    (by omega) (probeDist_lt hcap _ _)
  rw [h0] at this
  exact this

/-- findEntry for an absent key lands on a NULL-key slot of the probe sequence,
with no genuinely free slot earlier in the sequence. -/
theorem findEntry_absent {t : Table} (hwf : TableWF t) (hcap : 0 < t.capacity) {k : ObjString}
    (habs : ∀ j, j < t.capacity → (t.entries.getD j emptyEntry).key ≠ some k) :
    ∃ dj, dj < t.capacity ∧
      findEntry t k = some (probeAt t.capacity (k.hash % t.capacity) dj) ∧
      (t.entries.getD (probeAt t.capacity (k.hash % t.capacity) dj) emptyEntry).key = none ∧
      ∀ d, d < dj →
        (t.entries.getD (probeAt t.capacity (k.hash % t.capacity) d) emptyEntry).isFree
          = false := by
  have hstart : k.hash % t.capacity < t.capacity := Nat.mod_lt _ hcap
  obtain ⟨j, hj, hjfree⟩ := exists_free_slot hwf hcap
  have hPex : ∃ d, (t.entries.getD (probeAt t.capacity (k.hash % t.capacity) d)
      emptyEntry).isFree = true := by
    refine ⟨probeDist t.capacity (k.hash % t.capacity) j, ?_⟩
    rw [probeAt_probeDist hstart hj]
    exact hjfree
  classical
  set F := Nat.find hPex with hFdef
  have hFfree := Nat.find_spec hPex
  have hFmin : ∀ d, d < F →
      (t.entries.getD (probeAt t.capacity (k.hash % t.capacity) d) emptyEntry).isFree
        = false := by
    intro d hd
    have := Nat.find_min hPex hd
    simpa using this
  have hFlt : F < t.capacity := by
    have : F ≤ probeDist t.capacity (k.hash % t.capacity) j := by
      apply Nat.find_min'
      rw [probeAt_probeDist hstart hj]
      exact hjfree
    have := probeDist_lt hcap (k.hash % t.capacity) j
    omega
  have h0 : probeAt t.capacity (k.hash % t.capacity) 0 = k.hash % t.capacity := by
    unfold probeAt
    rw [Nat.add_zero, Nat.mod_eq_of_lt hstart]
  obtain ⟨dj, hdjF, heq, hdjkey⟩ :=
    findEntryAux_absent hcap habs hFfree hFmin F 0 none t.capacity (by omega) (by omega)
      (Or.inl rfl)
  refine ⟨dj, by omega, ?_, hdjkey, ?_⟩
  · unfold findEntry
    rw [if_neg (by omega)]
    rw [h0] at heq
    exact heq
  · intro d hd
    exact hFmin d (by omega)

/-- tableGet returns exactly the pairs stored in the entry array. -/
theorem tableGet_some_iff {t : Table} (hwf : TableWF t) {k : ObjString} {v : Value} :
    tableGet t k = some v ↔ HasPair t.entries k v := by
  constructor
  · intro h
    unfold tableGet at h
    by_cases hcnt : t.count = 0
    · rw [if_pos hcnt] at h
      exact absurd h (by simp)
    rw [if_neg hcnt] at h
    have hcap : 0 < t.capacity := capacity_pos_of_count hwf hcnt
    rcases hfe : findEntry t k with _ | i
    · rw [hfe] at h
      simp at h
    rw [hfe] at h
    have hsound : i < t.capacity ∧
        ((t.entries.getD i emptyEntry).key = none ∨
          (t.entries.getD i emptyEntry).key = some k) := by
      unfold findEntry at hfe
      rw [if_neg (by omega)] at hfe
      exact findEntryAux_sound hcap t.capacity (k.hash % t.capacity) none
        (Nat.mod_lt _ hcap) (by intro tIdx ht; exact absurd ht (by simp)) i hfe
    rcases hkey : (t.entries.getD i emptyEntry).key with _ | k0
    · simp only [hkey] at h
      simp at h
    simp only [hkey] at h
    have hvk : (t.entries.getD i emptyEntry).value = v := by
      exact Option.some.inj h
    have hk0 : k0 = k := by
      rcases hsound.2 with hnone | hsome
      · rw [hkey] at hnone
        exact absurd hnone (by simp)
      · rw [hkey] at hsome
        exact Option.some.inj hsome
    refine ⟨i, ?_, ?_⟩
    · rw [hwf.len_eq]
      exact hsound.1
    · cases hE : t.entries.getD i emptyEntry with
      | mk ekey eval =>
        rw [hE] at hkey hvk
        simp only at hkey hvk
        rw [hkey, hvk, hk0]
  · rintro ⟨i, hi, he⟩
    have hicap : i < t.capacity := by rw [← hwf.len_eq]; exact hi
    have hkey : (t.entries.getD i emptyEntry).key = some k := by rw [he]
    have hval : (t.entries.getD i emptyEntry).value = v := by rw [he]
    have hcnt : t.count ≠ 0 := by
      have hpos : 0 < t.entries.countP (fun e => !e.isFree) := by
        rw [List.countP_pos_iff]
        refine ⟨t.entries.getD i emptyEntry, ?_, ?_⟩
        · rw [getD_eq_getElem hi]
          exact List.getElem_mem hi
        · rw [he]
          rfl
      have := hwf.count_eq
      omega
    unfold tableGet
    rw [if_neg hcnt, findEntry_found hwf hicap hkey]
    simp only [hkey, hval]

/-- tableGet misses exactly the keys stored in no slot. -/
theorem tableGet_none_iff {t : Table} (hwf : TableWF t) {k : ObjString} :
    tableGet t k = none ↔
      ∀ j, j < t.capacity → (t.entries.getD j emptyEntry).key ≠ some k := by
  constructor
  · intro h j hj hkey
    have hpair : HasPair t.entries k (t.entries.getD j emptyEntry).value := by
      refine ⟨j, by rw [hwf.len_eq]; exact hj, ?_⟩
      cases hE : t.entries.getD j emptyEntry with
      | mk ekey eval =>
        rw [hE] at hkey
        simp only at hkey
        rw [hkey]
    rw [(tableGet_some_iff hwf).mpr hpair] at h
    exact absurd h (by simp)
  · intro habs
    unfold tableGet
    by_cases hcnt : t.count = 0
    · rw [if_pos hcnt]
    rw [if_neg hcnt]
    have hcap : 0 < t.capacity := capacity_pos_of_count hwf hcnt
    obtain ⟨dj, _, hfe, hdjkey, _⟩ := findEntry_absent hwf hcap habs
    rw [hfe]
    simp only [hdjkey]

/-! ### Updating one slot: generic preservation lemmas -/

theorem uniqKeys_set {entries : List Entry} {capacity : Nat}
    (hlen : entries.length = capacity) (huniq : UniqKeys entries capacity)
    {j : Nat} (hj : j < capacity) {a : Entry}
    (hanew : ∀ k, a.key = some k → ∀ i, i < capacity → i ≠ j →
      (entries.getD i emptyEntry).key ≠ some k) :
    UniqKeys (entries.set j a) capacity := by
  intro i1 i2 hi1 hi2 hne k hk1 hk2
  by_cases h1 : i1 = j
  · subst h1
    rw [getD_set_self (by omega) a] at hk1
    rw [getD_set_ne hne a] at hk2
    exact hanew k hk1 i2 hi2 (Ne.symm hne) hk2
  · rw [getD_set_ne (Ne.symm h1) a] at hk1
    by_cases h2 : i2 = j
    · subst h2
      rw [getD_set_self (by omega) a] at hk2
      exact hanew k hk2 i1 hi1 h1 hk1
    · rw [getD_set_ne (Ne.symm h2) a] at hk2
      exact huniq i1 i2 hi1 hi2 hne k hk1 hk2

theorem probeChains_set {entries : List Entry} {capacity : Nat}
    (hlen : entries.length = capacity)
    (hchain : ProbeChains entries capacity) {j : Nat} (hj : j < capacity) {a : Entry}
    (hafree : a.isFree = false)
    (hachain : ∀ k, a.key = some k →
      ∀ d, d < probeDist capacity (k.hash % capacity) j →
        (entries.getD (probeAt capacity (k.hash % capacity) d) emptyEntry).isFree = false) :
    ProbeChains (entries.set j a) capacity := by
  intro m hm k hk d hd
  have htrans : ∀ p, (entries.getD p emptyEntry).isFree = false →
      ((entries.set j a).getD p emptyEntry).isFree = false := by
    intro p hp
    by_cases hpj : p = j
    · subst hpj
      rw [getD_set_self (by omega) a]
      exact hafree
    · rw [getD_set_ne (Ne.symm hpj) a]
      exact hp
  by_cases hmj : m = j
  · subst hmj
    rw [getD_set_self (by omega) a] at hk
    exact htrans _ (hachain k hk d hd)
  · rw [getD_set_ne (Ne.symm hmj) a] at hk
    exact htrans _ (hchain m hm k hk d hd)

theorem hasPair_set {entries : List Entry} {j : Nat} (hj : j < entries.length)
    (a : Entry) (k2 : ObjString) (v2 : Value) :
    HasPair (entries.set j a) k2 v2 ↔
      (a = ⟨some k2, v2⟩ ∨
        ∃ i, i < entries.length ∧ i ≠ j ∧ entries.getD i emptyEntry = ⟨some k2, v2⟩) := by
  constructor
  · rintro ⟨i, hi, he⟩
    rw [List.length_set] at hi
    by_cases hij : i = j
    · subst hij
      rw [getD_set_self hi a] at he
      exact Or.inl he
    · rw [getD_set_ne (Ne.symm hij) a] at he
      exact Or.inr ⟨i, hi, hij, he⟩
  · rintro (rfl | ⟨i, hi, hij, he⟩)
    · exact ⟨j, by rw [List.length_set]; exact hj, by rw [getD_set_self hj]⟩
    · exact ⟨i, by rw [List.length_set]; exact hi, by rw [getD_set_ne (Ne.symm hij) a]; exact he⟩

/-- Writing an absent key into the slot findEntry returns for it: the updated
array stays well formed, stores the new pair, and leaves every other key
untouched.  The count update matches tableSet (it grows exactly when the slot
was genuinely empty rather than a tombstone). -/
theorem insert_absent_spec {t : Table} (hwf : TableWF t) (hcap : 0 < t.capacity)
    {k : ObjString} (v : Value)
    (habs : ∀ j, j < t.capacity → (t.entries.getD j emptyEntry).key ≠ some k)
    (hroom : t.count + 1 ≤ 3 * t.capacity / 4) :
    ∃ i, i < t.capacity ∧ findEntry t k = some i ∧
      (t.entries.getD i emptyEntry).key = none ∧
      TableWF ⟨(if isNilValue (t.entries.getD i emptyEntry).value then t.count + 1 else t.count),
        t.capacity, t.entries.set i ⟨some k, v⟩⟩ ∧
      HasPair (t.entries.set i ⟨some k, v⟩) k v ∧
      (∀ k2 v2, k2 ≠ k →
        (HasPair (t.entries.set i ⟨some k, v⟩) k2 v2 ↔ HasPair t.entries k2 v2)) ∧
      (∀ v2, HasPair (t.entries.set i ⟨some k, v⟩) k v2 → v2 = v) := by
  obtain ⟨dj, hdj, hfe, hkeynone, hnofree⟩ := findEntry_absent hwf hcap habs
  have hstart : k.hash % t.capacity < t.capacity := Nat.mod_lt _ hcap
  set i := probeAt t.capacity (k.hash % t.capacity) dj with hidef
  have hi : i < t.capacity := probeAt_lt hcap _ _
  have hilen : i < t.entries.length := by rw [hwf.len_eq]; exact hi
  have hnewfree : Entry.isFree ⟨some k, v⟩ = false := by
    unfold Entry.isFree
    simp
  refine ⟨i, hi, hfe, hkeynone, ?_, ?_, ?_, ?_⟩
  · refine ⟨?_, ?_, ?_, ?_, ?_⟩
    · simp only [List.length_set]
      exact hwf.len_eq
    · have hset := List.countP_set (fun e => !e.isFree) t.entries i ⟨some k, v⟩ hilen
      rw [getD_eq_getElem hilen] at hkeynone
      by_cases hnil : isNilValue (t.entries.getD i emptyEntry).value = true
      · have hfreeold : t.entries[i].isFree = true := by
          rw [getD_eq_getElem hilen] at hnil
          exact isFree_iff.mpr ⟨hkeynone, isNilValue_iff.mp hnil⟩
        have hcnt := hwf.count_eq
        show (if isNilValue (t.entries.getD i emptyEntry).value = true
          then t.count + 1 else t.count) = _
        rw [if_pos hnil, hset, hfreeold, hnewfree]
        simp
        omega
      · have hnil2 : isNilValue (t.entries.getD i emptyEntry).value = false := by
          revert hnil
          cases isNilValue (t.entries.getD i emptyEntry).value <;> simp
        have htombold : t.entries[i].isFree = false := by
          rw [getD_eq_getElem hilen] at hnil2
          unfold Entry.isFree
          rw [hnil2]
          simp
        have hpos : 0 < t.entries.countP (fun e => !e.isFree) := by
          rw [List.countP_pos_iff]
          exact ⟨t.entries[i], List.getElem_mem hilen, by simp [htombold]⟩
        have hcnt := hwf.count_eq
        show (if isNilValue (t.entries.getD i emptyEntry).value = true
          then t.count + 1 else t.count) = _
        rw [if_neg hnil, hset, htombold, hnewfree]
        simp
        omega
    · by_cases hnil : isNilValue (t.entries.getD i emptyEntry).value = true
      · show (if isNilValue (t.entries.getD i emptyEntry).value = true
          then t.count + 1 else t.count) ≤ _
        rw [if_pos hnil]
        exact hroom
      · show (if isNilValue (t.entries.getD i emptyEntry).value = true
          then t.count + 1 else t.count) ≤ _
        rw [if_neg hnil]
        exact hwf.count_le
    · refine uniqKeys_set hwf.len_eq hwf.uniq hi ?_
      intro k2 hk2 i2 hi2 hne
      obtain rfl : k = k2 := Option.some.inj hk2
      exact habs i2 hi2
    · refine probeChains_set hwf.len_eq hwf.chain hi hnewfree ?_
      intro k2 hk2 d hd
      obtain rfl : k = k2 := Option.some.inj hk2
      rw [hidef, probeDist_probeAt hstart hdj] at hd
      exact hnofree d hd
  · exact (hasPair_set hilen _ k v).mpr (Or.inl rfl)
  · intro k2 v2 hne
    rw [hasPair_set hilen]
    constructor
    · rintro (ha | ⟨i2, hi2, hne2, he⟩)
      · exact absurd (congrArg Entry.key ha) (by simp [Ne.symm hne])
      · exact ⟨i2, hi2, he⟩
    · rintro ⟨i2, hi2, he⟩
      have hne2 : i2 ≠ i := by
        intro hcontr
        subst hcontr
        rw [he] at hkeynone
        simp at hkeynone
      exact Or.inr ⟨i2, hi2, hne2, he⟩
  · intro v2 hp
    rcases (hasPair_set hilen _ k v2).mp hp with ha | ⟨i2, hi2, hne2, he⟩
    · exact (congrArg Entry.value ha).symm
    · have : (t.entries.getD i2 emptyEntry).key = some k := by rw [he]
      exact absurd this (habs i2 (by rw [← hwf.len_eq]; exact hi2))

/-- Overwriting the slot that already stores the key: same shape of facts, the
count is unchanged. -/
theorem overwrite_spec {t : Table} (hwf : TableWF t) {k : ObjString} (v : Value)
    {i : Nat} (hi : i < t.capacity) (hk : (t.entries.getD i emptyEntry).key = some k) :
    findEntry t k = some i ∧
      TableWF ⟨t.count, t.capacity, t.entries.set i ⟨some k, v⟩⟩ ∧
      HasPair (t.entries.set i ⟨some k, v⟩) k v ∧
      (∀ k2 v2, k2 ≠ k →
        (HasPair (t.entries.set i ⟨some k, v⟩) k2 v2 ↔ HasPair t.entries k2 v2)) ∧
      (∀ v2, HasPair (t.entries.set i ⟨some k, v⟩) k v2 → v2 = v) := by
  have hilen : i < t.entries.length := by rw [hwf.len_eq]; exact hi
  have hnewfree : Entry.isFree ⟨some k, v⟩ = false := by
    unfold Entry.isFree
    simp
  have holdfree : t.entries[i].isFree = false := by
    rw [← getD_eq_getElem hilen]
    exact isFree_false_of_key hk
  refine ⟨findEntry_found hwf hi hk, ?_, ?_, ?_, ?_⟩
  · refine ⟨?_, ?_, ?_, ?_, ?_⟩
    · simp only [List.length_set]
      exact hwf.len_eq
    · have hset := List.countP_set (fun e => !e.isFree) t.entries i ⟨some k, v⟩ hilen
      have hpos : 0 < t.entries.countP (fun e => !e.isFree) := by
        rw [List.countP_pos_iff]
        exact ⟨t.entries[i], List.getElem_mem hilen, by simp [holdfree]⟩
      rw [hset, holdfree, hnewfree]
      have := hwf.count_eq
      simp
      omega
    · exact hwf.count_le
    · refine uniqKeys_set hwf.len_eq hwf.uniq hi ?_
      intro k2 hk2 i2 hi2 hne
      obtain rfl : k = k2 := Option.some.inj hk2
      exact hwf.uniq i i2 hi hi2 (Ne.symm hne) k hk
    · refine probeChains_set hwf.len_eq hwf.chain hi hnewfree ?_
      intro k2 hk2 d hd
      obtain rfl : k = k2 := Option.some.inj hk2
      exact hwf.chain i hi k hk d hd
  · exact (hasPair_set hilen _ k v).mpr (Or.inl rfl)
  · intro k2 v2 hne
    rw [hasPair_set hilen]
    constructor
    · rintro (ha | ⟨i2, hi2, hne2, he⟩)
      · exact absurd (congrArg Entry.key ha) (by simp [Ne.symm hne])
      · exact ⟨i2, hi2, he⟩
    · rintro ⟨i2, hi2, he⟩
      have hne2 : i2 ≠ i := by
        intro hcontr
        subst hcontr
        rw [he] at hk
        simp at hk
        exact absurd hk hne
      exact Or.inr ⟨i2, hi2, hne2, he⟩
  · intro v2 hp
    rcases (hasPair_set hilen _ k v2).mp hp with ha | ⟨i2, hi2, hne2, he⟩
    · exact (congrArg Entry.value ha).symm
    · have hk2 : (t.entries.getD i2 emptyEntry).key = some k := by rw [he]
      exact absurd hk2 (hwf.uniq i i2 hi (by rw [← hwf.len_eq]; exact hi2) (Ne.symm hne2) k hk)

/-! ### tableDelete specification -/

/-- Two well-formed tables that store the same pairs for a key agree on
tableGet for that key. -/
theorem tableGet_congr {t1 t2 : Table} (h1 : TableWF t1) (h2 : TableWF t2) {k : ObjString}
    (h : ∀ v, HasPair t1.entries k v ↔ HasPair t2.entries k v) :
    tableGet t1 k = tableGet t2 k := by
  rcases hg : tableGet t2 k with _ | v
  · rcases hg1 : tableGet t1 k with _ | v1
    · rfl
    · exfalso
      have hp := (tableGet_some_iff h1).mp hg1
      have hcontr := (tableGet_some_iff h2).mpr ((h v1).mp hp)
      rw [hg] at hcontr
      exact Option.noConfusion hcontr
  · exact (tableGet_some_iff h1).mpr ((h v).mpr ((tableGet_some_iff h2).mp hg))

/-- tableDelete keeps the table well formed, unbinds exactly the deleted key
(via a tombstone), and leaves every other binding unchanged. -/
theorem tableDelete_spec {t : Table} (hwf : TableWF t) (k : ObjString) :
    TableWF (tableDelete t k).1 ∧
      tableGet (tableDelete t k).1 k = none ∧
      (∀ k2, k2 ≠ k → tableGet (tableDelete t k).1 k2 = tableGet t k2) := by
  by_cases hcnt : t.count = 0
  · have hdel : tableDelete t k = (t, false) := by
      unfold tableDelete
      rw [if_pos hcnt]
    rw [hdel]
    refine ⟨hwf, ?_, fun k2 _ => rfl⟩
    unfold tableGet
    rw [if_pos hcnt]
  rcases hget : tableGet t k with _ | v
  · have habs := (tableGet_none_iff hwf).mp hget
    have hcap : 0 < t.capacity := capacity_pos_of_count hwf hcnt
    obtain ⟨dj, _, hfe, hkeynone, _⟩ := findEntry_absent hwf hcap habs
    have hdel : tableDelete t k = (t, false) := by
      unfold tableDelete
      rw [if_neg hcnt, hfe]
      simp only [hkeynone]
    rw [hdel]
    exact ⟨hwf, hget, fun k2 _ => rfl⟩
  · obtain ⟨i, hilen, he⟩ := (tableGet_some_iff hwf).mp hget
    have hi : i < t.capacity := by rw [← hwf.len_eq]; exact hilen
    have hkey : (t.entries.getD i emptyEntry).key = some k := by rw [he]
    have hfe := findEntry_found hwf hi hkey
    have hdel : tableDelete t k =
        (⟨t.count, t.capacity, t.entries.set i ⟨none, Value.boolean true⟩⟩, true) := by
      unfold tableDelete
      rw [if_neg hcnt, hfe]
      simp only [hkey]
    rw [hdel]
    have hafree : Entry.isFree ⟨none, Value.boolean true⟩ = false := by
      unfold Entry.isFree
      simp [isNilValue]
    have holdfree : t.entries[i].isFree = false := by
      rw [← getD_eq_getElem hilen]
      exact isFree_false_of_key hkey
    have hwf2 : TableWF ⟨t.count, t.capacity, t.entries.set i ⟨none, Value.boolean true⟩⟩ := by
      refine ⟨?_, ?_, hwf.count_le, ?_, ?_⟩
      · simp only [List.length_set]
        exact hwf.len_eq
      · have hset := List.countP_set (fun e => !e.isFree) t.entries i
          ⟨none, Value.boolean true⟩ hilen
        have hpos : 0 < t.entries.countP (fun e => !e.isFree) := by
          rw [List.countP_pos_iff]
          exact ⟨t.entries[i], List.getElem_mem hilen, by simp [holdfree]⟩
        rw [hset, holdfree, hafree]
        have := hwf.count_eq
        simp
        omega
      · refine uniqKeys_set hwf.len_eq hwf.uniq hi ?_
        intro k2 hk2
        exact Option.noConfusion hk2
      · refine probeChains_set hwf.len_eq hwf.chain hi hafree ?_
        intro k2 hk2
        exact Option.noConfusion hk2
    refine ⟨hwf2, ?_, ?_⟩
    · rw [tableGet_none_iff hwf2]
      intro j hj hk2
      by_cases hij : j = i
      · subst hij
        rw [getD_set_self hilen] at hk2
        exact Option.noConfusion hk2
      · rw [getD_set_ne (Ne.symm hij) _] at hk2
        exact hwf.uniq i j hi hj (Ne.symm hij) k hkey hk2
    · intro k2 hne
      refine tableGet_congr hwf2 hwf ?_
      intro v2
      constructor
      · rintro ⟨i2, hi2, he2⟩
        rw [List.length_set] at hi2
        have hne2 : i2 ≠ i := by
          intro hcontr
          subst hcontr
          rw [getD_set_self hi2] at he2
          exact Option.noConfusion (congrArg Entry.key he2)
        rw [getD_set_ne (Ne.symm hne2) _] at he2
        exact ⟨i2, hi2, he2⟩
      · rintro ⟨i2, hi2, he2⟩
        have hne2 : i2 ≠ i := by
          intro hcontr
          subst hcontr
          rw [he] at he2
          have := congrArg Entry.key he2
          simp only at this
          exact hne (Option.some.inj this).symm
        refine ⟨i2, by rw [List.length_set]; exact hi2, ?_⟩
        rw [getD_set_ne (Ne.symm hne2) _]
        exact he2

/-! ### adjustCapacity specification -/

/-- The keys of two entries differ (whenever both are present). -/
def KeysDiffer (e1 e2 : Entry) : Prop :=
  ∀ k : ObjString, e1.key = some k → e2.key ≠ some k

theorem getD_replicate (n i : Nat) :
    (List.replicate n emptyEntry).getD i emptyEntry = emptyEntry := by
  rcases Nat.lt_or_ge i n with h | h
  · rw [List.getD_eq_getElem?_getD, List.getElem?_eq_getElem (by simpa using h)]
    simp
  · rw [List.getD_eq_getElem?_getD, List.getElem?_eq_none (by simpa using h)]
    rfl

/-- Invariant of adjustCapacity's copy loop: re-inserting pairwise-distinct
keys into a fresh array keeps it well formed and tombstone-free, counts the
re-inserted keys, and accumulates exactly the processed pairs. -/
theorem adjustFold_spec {cap2 : Nat} (hcap2 : 0 < cap2) :
    ∀ (rest : List Entry) (accE : List Entry) (accN : Nat),
      TableWF ⟨accN, cap2, accE⟩ →
      (∀ j, j < cap2 → (accE.getD j emptyEntry).key = none →
        (accE.getD j emptyEntry).value = Value.nil) →
      (∀ e, e ∈ rest → ∀ k2, e.key = some k2 → ∀ j, j < cap2 →
        (accE.getD j emptyEntry).key ≠ some k2) →
      rest.Pairwise KeysDiffer →
      accN + rest.countP (fun e => e.key.isSome) ≤ 3 * cap2 / 4 →
      TableWF ⟨(rest.foldl (adjustStep cap2) (accE, accN)).2, cap2,
          (rest.foldl (adjustStep cap2) (accE, accN)).1⟩ ∧
        (rest.foldl (adjustStep cap2) (accE, accN)).2
            = accN + rest.countP (fun e => e.key.isSome) ∧
        (∀ k2 v2, HasPair (rest.foldl (adjustStep cap2) (accE, accN)).1 k2 v2 ↔
          (HasPair accE k2 v2 ∨ ∃ e, e ∈ rest ∧ e = (⟨some k2, v2⟩ : Entry))) := by
  intro rest
  induction rest with
  | nil =>
    intro accE accN hwf hnt _ _ _
    refine ⟨hwf, by simp [List.countP_nil], ?_⟩
    intro k2 v2
    simp only [List.foldl_nil]
    constructor
    · exact fun h => Or.inl h
    · rintro (h | ⟨e, he, _⟩)
      · exact h
      · exact absurd he (List.not_mem_nil e)
  | cons e rest' ih =>
    intro accE accN hwf hnt hdisj hpw hroom
    have hpwtail : rest'.Pairwise KeysDiffer := (List.pairwise_cons.mp hpw).2
    have hpwhead : ∀ e2, e2 ∈ rest' → KeysDiffer e e2 := (List.pairwise_cons.mp hpw).1
    rcases hek : e.key with _ | k0
    · -- NULL key: the loop skips the entry
      have hstep : adjustStep cap2 (accE, accN) e = (accE, accN) := by
        unfold adjustStep
        rw [hek]
      have hcnt : (e :: rest').countP (fun e => e.key.isSome)
          = rest'.countP (fun e => e.key.isSome) := by
        rw [List.countP_cons, hek]
        simp
      rw [List.foldl_cons, hstep]
      obtain ⟨h1, h2, h3⟩ := ih accE accN hwf hnt
        (fun e2 he2 => hdisj e2 (List.mem_cons_of_mem e he2)) hpwtail
        (by rw [hcnt] at hroom; exact hroom)
      refine ⟨h1, by rw [h2, hcnt], ?_⟩
      intro k2 v2
      rw [h3 k2 v2]
      constructor
      · rintro (h | ⟨e2, he2, hpair⟩)
        · exact Or.inl h
        · exact Or.inr ⟨e2, List.mem_cons_of_mem e he2, hpair⟩
      · rintro (h | ⟨e2, he2, hpair⟩)
        · exact Or.inl h
        · rcases List.mem_cons.mp he2 with rfl | he2
          · rw [hpair] at hek
            exact absurd hek (by simp)
          · exact Or.inr ⟨e2, he2, hpair⟩
    · -- Re-insert the key into the fresh array
      have hcnt : (e :: rest').countP (fun e => e.key.isSome)
          = rest'.countP (fun e => e.key.isSome) + 1 := by
        rw [List.countP_cons, hek]
        rfl
      have habs : ∀ j, j < cap2 → (accE.getD j emptyEntry).key ≠ some k0 :=
        fun j hj => hdisj e (List.mem_cons_self e rest') k0 hek j hj
      have hroomIns : accN + 1 ≤ 3 * cap2 / 4 := by
        rw [hcnt] at hroom
        omega
      obtain ⟨i, hi, hfe, hkeyi, hwf2, hpairNew, hpairOther, hpairUniq⟩ :=
        insert_absent_spec (t := ⟨accN, cap2, accE⟩) hwf hcap2 e.value habs hroomIns
      have hicap : i < cap2 := hi
      have hlenacc : accE.length = cap2 := hwf.len_eq
      have hilen : i < accE.length := by omega
      have hvali : (accE.getD i emptyEntry).value = Value.nil := hnt i hi hkeyi
      have hraw : rawInsertEntry accE cap2 k0 e.value = accE.set i ⟨some k0, e.value⟩ := by
        unfold rawInsertEntry
        have hfe2 : findEntryAux accE cap2 k0 cap2 (k0.hash % cap2) none = some i := by
          unfold findEntry at hfe
          rw [if_neg (by omega)] at hfe
          exact hfe
        rw [hfe2]
      have hstep : adjustStep cap2 (accE, accN) e = (accE.set i ⟨some k0, e.value⟩, accN + 1) := by
        unfold adjustStep
        rw [hek]
        simp only [hraw]
      have hwf3 : TableWF ⟨accN + 1, cap2, accE.set i ⟨some k0, e.value⟩⟩ := by
        have : isNilValue (accE.getD i emptyEntry).value = true := by
          rw [hvali]
          rfl
        rw [this, if_pos rfl] at hwf2
        exact hwf2
      rw [List.foldl_cons, hstep]
      have hnt2 : ∀ j, j < cap2 → ((accE.set i ⟨some k0, e.value⟩).getD j emptyEntry).key = none →
          ((accE.set i ⟨some k0, e.value⟩).getD j emptyEntry).value = Value.nil := by
        intro j hj hkey
        by_cases hij : j = i
        · subst hij
          rw [getD_set_self hilen] at hkey
          exact absurd hkey (by simp)
        · rw [getD_set_ne (Ne.symm hij)] at hkey ⊢
          exact hnt j hj hkey
      have hdisj2 : ∀ e2, e2 ∈ rest' → ∀ k2, e2.key = some k2 → ∀ j, j < cap2 →
          ((accE.set i ⟨some k0, e.value⟩).getD j emptyEntry).key ≠ some k2 := by
        intro e2 he2 k2 hk2 j hj
        by_cases hij : j = i
        · subst hij
          rw [getD_set_self hilen]
          intro hcontr
          obtain rfl : k0 = k2 := Option.some.inj hcontr
          exact hpwhead e2 he2 k0 hek hk2
        · rw [getD_set_ne (Ne.symm hij)]
          exact hdisj e2 (List.mem_cons_of_mem e he2) k2 hk2 j hj
      obtain ⟨h1, h2, h3⟩ := ih (accE.set i ⟨some k0, e.value⟩) (accN + 1) hwf3 hnt2 hdisj2
        hpwtail (by rw [hcnt] at hroom; omega)
      refine ⟨h1, by rw [h2, hcnt]; omega, ?_⟩
      intro k2 v2
      rw [h3 k2 v2]
      have hepair : e = (⟨some k0, e.value⟩ : Entry) := by
        cases e with
        | mk ekey eval =>
          simp only at hek
          rw [hek]
      by_cases hk20 : k2 = k0
      · subst hk20
        constructor
        · rintro (hnew | ⟨e2, he2, hpair⟩)
          · have := hpairUniq v2 hnew
            subst this
            exact Or.inr ⟨e, List.mem_cons_self e rest', hepair⟩
          · exact Or.inr ⟨e2, List.mem_cons_of_mem e he2, hpair⟩
        · rintro (hold | ⟨e2, he2, hpair⟩)
          · obtain ⟨j, hjlen, hje⟩ := hold
            have hjcap : j < cap2 := by
              have := hwf.len_eq
              simp only at this
              omega
            exact absurd (by rw [hje] : (accE.getD j emptyEntry).key = some k2)
              (habs j hjcap)
          · rcases List.mem_cons.mp he2 with heq | he2
            · rw [heq] at hpair
              have hv : e.value = v2 := by
                have h := congrArg Entry.value hpair
                simpa using h
              exact Or.inl (hv ▸ hpairNew)
            · exact Or.inr ⟨e2, he2, hpair⟩
      · rw [hpairOther k2 v2 hk20]
        constructor
        · rintro (hold | ⟨e2, he2, hpair⟩)
          · exact Or.inl hold
          · exact Or.inr ⟨e2, List.mem_cons_of_mem e he2, hpair⟩
        · rintro (hold | ⟨e2, he2, hpair⟩)
          · exact Or.inl hold
          · rcases List.mem_cons.mp he2 with heq | he2
            · rw [heq] at hpair
              have hcontr := congrArg Entry.key hpair
              rw [hek] at hcontr
              simp only at hcontr
              exact absurd (Option.some.inj hcontr).symm hk20
            · exact Or.inr ⟨e2, he2, hpair⟩

/-- adjustCapacity keeps the table well formed, installs the requested
capacity, drops tombstones (so the count cannot grow), and preserves exactly
the stored pairs. -/
theorem adjustCapacity_spec {t : Table} (hwf : TableWF t) {cap2 : Nat} (hcap2 : 0 < cap2)
    (hroom : t.count ≤ 3 * cap2 / 4) :
    TableWF (adjustCapacity t cap2) ∧
      (adjustCapacity t cap2).capacity = cap2 ∧
      (adjustCapacity t cap2).count ≤ t.count ∧
      (∀ k2 v2, HasPair (adjustCapacity t cap2).entries k2 v2 ↔ HasPair t.entries k2 v2) := by
  have hwfInit : TableWF ⟨0, cap2, List.replicate cap2 emptyEntry⟩ := by
    refine ⟨List.length_replicate cap2 emptyEntry, ?_, Nat.zero_le _, ?_, ?_⟩
    · symm
      rw [List.countP_eq_zero]
      intro a ha
      rw [List.eq_of_mem_replicate ha]
      simp [Entry.isFree, emptyEntry, isNilValue]
    · intro i j _ _ _ k hk
      rw [getD_replicate] at hk
      exact absurd hk (by simp [emptyEntry])
    · intro i _ k hk
      rw [getD_replicate] at hk
      exact absurd hk (by simp [emptyEntry])
  have hnt : ∀ j, j < cap2 → ((List.replicate cap2 emptyEntry).getD j emptyEntry).key = none →
      ((List.replicate cap2 emptyEntry).getD j emptyEntry).value = Value.nil := by
    intro j _ _
    rw [getD_replicate]
    rfl
  have hdisj : ∀ e, e ∈ t.entries → ∀ k2, e.key = some k2 → ∀ j, j < cap2 →
      ((List.replicate cap2 emptyEntry).getD j emptyEntry).key ≠ some k2 := by
    intro e _ k2 _ j _
    rw [getD_replicate]
    simp [emptyEntry]
  have hpw : t.entries.Pairwise KeysDiffer := by
    rw [List.pairwise_iff_getElem]
    intro i j hi hj hij k hk1 hk2
    have hic : i < t.capacity := by rw [← hwf.len_eq]; exact hi
    have hjc : j < t.capacity := by rw [← hwf.len_eq]; exact hj
    rw [← getD_eq_getElem hi] at hk1
    rw [← getD_eq_getElem hj] at hk2
    exact hwf.uniq i j hic hjc (by omega) k hk1 hk2
  have hcntle : t.entries.countP (fun e => e.key.isSome)
      ≤ t.entries.countP (fun e => !e.isFree) := by
    apply List.countP_mono_left
    intro e _ he
    rcases hk : e.key with _ | k
    · rw [hk] at he
      exact absurd he (by simp)
    · rw [isFree_false_of_key hk]
      rfl
  have hroomFold : 0 + t.entries.countP (fun e => e.key.isSome) ≤ 3 * cap2 / 4 := by
    have := hwf.count_eq
    omega
  obtain ⟨h1, h2, h3⟩ := adjustFold_spec hcap2 t.entries (List.replicate cap2 emptyEntry) 0
    hwfInit hnt hdisj hpw hroomFold
  have hadj : adjustCapacity t cap2 =
      ⟨(t.entries.foldl (adjustStep cap2) (List.replicate cap2 emptyEntry, 0)).2, cap2,
        (t.entries.foldl (adjustStep cap2) (List.replicate cap2 emptyEntry, 0)).1⟩ := rfl
  rw [hadj]
  refine ⟨h1, rfl, ?_, ?_⟩
  · have := hwf.count_eq
    simp only
    omega
  · intro k2 v2
    simp only
    rw [h3 k2 v2]
    constructor
    · rintro (hrep | ⟨e, he, rfl⟩)
      · obtain ⟨j, hj, hje⟩ := hrep
        rw [getD_replicate] at hje
        exact absurd (congrArg Entry.key hje) (by simp [emptyEntry])
      · obtain ⟨i, hi, hei⟩ := List.mem_iff_getElem.mp he
        exact ⟨i, hi, by rw [getD_eq_getElem hi, hei]⟩
    · rintro ⟨i, hi, he⟩
      refine Or.inr ⟨t.entries.getD i emptyEntry, ?_, he⟩
      rw [getD_eq_getElem hi]
      exact List.getElem_mem hi

/-! ### tableSet specification -/

/-- tableSet keeps the table well formed, binds the key to the value, leaves
every other binding unchanged, and reports isNewKey exactly when the key was
unbound before the call. -/
theorem tableSet_spec {t : Table} (hwf : TableWF t) (k : ObjString) (v : Value) :
    TableWF (tableSet t k v).1 ∧
      tableGet (tableSet t k v).1 k = some v ∧
      (∀ k2, k2 ≠ k → tableGet (tableSet t k v).1 k2 = tableGet t k2) ∧
      ((tableSet t k v).2 = true ↔ tableGet t k = none) := by
  obtain ⟨t1, ht1eq, hwf1, hcap1, hroom1, hpair1⟩ : ∃ t1 : Table,
      (if t.count + 1 > 3 * t.capacity / 4 then adjustCapacity t (growCapacity t.capacity)
        else t) = t1 ∧
      TableWF t1 ∧ 0 < t1.capacity ∧ t1.count + 1 ≤ 3 * t1.capacity / 4 ∧
      (∀ k2 v2, HasPair t1.entries k2 v2 ↔ HasPair t.entries k2 v2) := by
    by_cases hgrow : t.count + 1 > 3 * t.capacity / 4
    · have hcap2 : 0 < growCapacity t.capacity := by
        unfold growCapacity
        by_cases h8 : t.capacity < 8
        · rw [if_pos h8]
          omega
        · rw [if_neg h8]
          omega
      have hroomAdj : t.count ≤ 3 * growCapacity t.capacity / 4 := by
        have hle := hwf.count_le
        unfold growCapacity
        by_cases h8 : t.capacity < 8
        · rw [if_pos h8]
          omega
        · rw [if_neg h8]
          omega
      obtain ⟨ha1, ha2, ha3, ha4⟩ := adjustCapacity_spec hwf hcap2 hroomAdj
      refine ⟨adjustCapacity t (growCapacity t.capacity), by rw [if_pos hgrow], ha1,
        ?_, ?_, ha4⟩
      · rw [ha2]
        exact hcap2
      · rw [ha2]
        have hle := hwf.count_le
        revert ha3 hle
        unfold growCapacity
        by_cases h8 : t.capacity < 8
        · rw [if_pos h8]
          intro ha3 hle
          omega
        · rw [if_neg h8]
          intro ha3 hle
          omega
    · refine ⟨t, by rw [if_neg hgrow], hwf, by omega, by omega, fun _ _ => Iff.rfl⟩
  rcases hget : tableGet t k with _ | v0
  · -- the key was unbound: a fresh slot is claimed and isNewKey is true
    have hget1 : tableGet t1 k = none := by
      rw [tableGet_congr hwf1 hwf (fun v2 => hpair1 k v2)]
      exact hget
    have habs1 := (tableGet_none_iff hwf1).mp hget1
    obtain ⟨i, hi, hfe, hkeyi, hwf2, hpairNew, hpairOther, hpairUniq⟩ :=
      insert_absent_spec hwf1 hcap1 v habs1 hroom1
    have hres : tableSet t k v =
        (⟨if isNilValue (t1.entries.getD i emptyEntry).value = true then t1.count + 1
            else t1.count,
          t1.capacity, t1.entries.set i ⟨some k, v⟩⟩, true) := by
      simp only [tableSet]
      rw [ht1eq, hfe]
      simp only [hkeyi, Option.isNone_none, Bool.true_and]
    refine ⟨?_, ?_, ?_, ?_⟩
    · rw [hres]
      exact hwf2
    · rw [hres]
      exact (tableGet_some_iff hwf2).mpr hpairNew
    · intro k2 hne
      rw [hres]
      exact tableGet_congr hwf2 hwf
        (fun v2 => (hpairOther k2 v2 hne).trans (hpair1 k2 v2))
    · rw [hres]
      simp
  · -- the key was bound: its slot is overwritten and isNewKey is false
    have hpairT1 : HasPair t1.entries k v0 :=
      (hpair1 k v0).mpr ((tableGet_some_iff hwf).mp hget)
    obtain ⟨i, hlen, he⟩ := hpairT1
    have hi : i < t1.capacity := by rw [← hwf1.len_eq]; exact hlen
    have hkey : (t1.entries.getD i emptyEntry).key = some k := by rw [he]
    obtain ⟨hfe, hwf2, hpairNew, hpairOther, hpairUniq⟩ := overwrite_spec hwf1 v hi hkey
    have hres : tableSet t k v =
        (⟨t1.count, t1.capacity, t1.entries.set i ⟨some k, v⟩⟩, false) := by
      simp only [tableSet]
      rw [ht1eq, hfe]
      simp only [hkey, Option.isNone_some, Bool.false_and]
      rfl
    refine ⟨?_, ?_, ?_, ?_⟩
    · rw [hres]
      exact hwf2
    · rw [hres]
      exact (tableGet_some_iff hwf2).mpr hpairNew
    · intro k2 hne
      rw [hres]
      exact tableGet_congr hwf2 hwf
        (fun v2 => (hpairOther k2 v2 hne).trans (hpair1 k2 v2))
    · rw [hres]
      simp

/-! ### The global-variable opcodes of the VM (vm.c run loop) -/

/-- The VM state fragment touched by the global-variable opcodes: the value
stack (head = top of stack) and the globals table. -/
structure GlobalsState where
  stack : List Value
  globals : Table

/-- peek(0) of vm.c.  The compiler only emits these opcodes with a value on
the stack; the nil default merely totalizes the model. -/
def peek0 (st : GlobalsState) : Value := st.stack.headD Value.nil

/-- Outcome of one global-variable instruction: normal dispatch of the next
instruction, or runtimeError (which prints, resets the value stack and returns
INTERPRET_RUNTIME_ERROR; the globals table is not part of that reset and is
recorded here). -/
inductive StepOutcome where
  | ok : GlobalsState → StepOutcome
  | undefinedVariable : ObjString → Table → StepOutcome

/-- OP_DEFINE_GLOBAL of vm.c run(): tableSet(&vm.globals, name, peek(0)) and
then pop the value; the result of tableSet is ignored, there is no error
path. -/
def opDefineGlobal (name : ObjString) (st : GlobalsState) : GlobalsState :=
  let r := tableSet st.globals name (peek0 st)
  ⟨st.stack.tail, r.1⟩

/-- OP_SET_GLOBAL of vm.c run(): when tableSet reports a new key the variable
was undefined, so the just-inserted key is deleted again and a runtime error
is raised; otherwise execution continues.  The value is never popped. -/
def opSetGlobal (name : ObjString) (st : GlobalsState) : StepOutcome :=
  let r := tableSet st.globals name (peek0 st)
  if r.2 then
    let d := tableDelete r.1 name
    StepOutcome.undefinedVariable name d.1
  else
    StepOutcome.ok ⟨st.stack, r.1⟩

/-- C6: executing OP_SET_GLOBAL with a name unbound in the globals table
raises the Undefined-variable runtime error and leaves the globals mapping
unchanged (the speculatively inserted key is deleted before the error
returns); with a bound name it updates the binding to peek(0) and does not
pop the value.  The error is raised if and only if the name was unbound
before the instruction. -/
theorem C6_set_global_spec (st : GlobalsState) (name : ObjString)
    (hwf : TableWF st.globals) :
    (∀ g, opSetGlobal name st = StepOutcome.undefinedVariable name g →
      tableGet st.globals name = none ∧ ∀ k, tableGet g k = tableGet st.globals k) ∧
    (∀ st2, opSetGlobal name st = StepOutcome.ok st2 →
      tableGet st.globals name ≠ none ∧
      tableGet st2.globals name = some (peek0 st) ∧
      (∀ k, k ≠ name → tableGet st2.globals k = tableGet st.globals k) ∧
      st2.stack = st.stack) ∧
    ((∃ g, opSetGlobal name st = StepOutcome.undefinedVariable name g) ↔
      tableGet st.globals name = none) := by
  obtain ⟨hwfS, hgetS, hotherS, hnewS⟩ := tableSet_spec hwf name (peek0 st)
  rcases hr2 : (tableSet st.globals name (peek0 st)).2 with _ | _
  · -- the key already existed: normal path
    have hstep : opSetGlobal name st =
        StepOutcome.ok ⟨st.stack, (tableSet st.globals name (peek0 st)).1⟩ := by
      simp only [opSetGlobal]
      rw [hr2]
      rfl
    have hbound : tableGet st.globals name ≠ none := by
      intro hcontr
      rw [← hnewS] at hcontr
      rw [hr2] at hcontr
      exact Bool.noConfusion hcontr
    refine ⟨?_, ?_, ?_⟩
    · intro g hg
      rw [hstep] at hg
      exact StepOutcome.noConfusion hg
    · intro st2 hst2
      rw [hstep] at hst2
      obtain rfl : (⟨st.stack, (tableSet st.globals name (peek0 st)).1⟩ : GlobalsState)
          = st2 := by
        cases hst2
        rfl
      exact ⟨hbound, hgetS, hotherS, rfl⟩
    · constructor
      · rintro ⟨g, hg⟩
        rw [hstep] at hg
        exact StepOutcome.noConfusion hg
      · intro hcontr
        exact absurd hcontr hbound
  · -- new key: delete it again and raise the runtime error
    obtain ⟨hwfD, hgetD, hotherD⟩ := tableDelete_spec hwfS name
    have hstep : opSetGlobal name st = StepOutcome.undefinedVariable name
        (tableDelete (tableSet st.globals name (peek0 st)).1 name).1 := by
      simp only [opSetGlobal]
      rw [hr2]
      rfl
    have hunbound : tableGet st.globals name = none := hnewS.mp hr2
    refine ⟨?_, ?_, ?_⟩
    · intro g hg
      rw [hstep] at hg
      obtain rfl : (tableDelete (tableSet st.globals name (peek0 st)).1 name).1 = g := by
        cases hg
        rfl
      refine ⟨hunbound, ?_⟩
      intro k
      by_cases hk : k = name
      · subst hk
        rw [hgetD, hunbound]
      · rw [hotherD k hk, hotherS k hk]
    · intro st2 hst2
      rw [hstep] at hst2
      exact StepOutcome.noConfusion hst2
    · exact ⟨fun _ => hunbound, fun _ => ⟨_, hstep⟩⟩

/-- Witness for C6 at a concrete input: an empty globals table, so the name is
unbound and the error path is taken. -/
theorem C6_set_global_spec_witness :
    (∀ g, opSetGlobal ⟨0, [122], 7⟩ ⟨[Value.number 5], initTable⟩
        = StepOutcome.undefinedVariable ⟨0, [122], 7⟩ g →
      tableGet initTable ⟨0, [122], 7⟩ = none ∧
      ∀ k, tableGet g k = tableGet initTable k) ∧
    (∀ st2, opSetGlobal ⟨0, [122], 7⟩ ⟨[Value.number 5], initTable⟩ = StepOutcome.ok st2 →
      tableGet initTable ⟨0, [122], 7⟩ ≠ none ∧
      tableGet st2.globals ⟨0, [122], 7⟩
          = some (peek0 ⟨[Value.number 5], initTable⟩) ∧
      (∀ k, k ≠ ⟨0, [122], 7⟩ → tableGet st2.globals k = tableGet initTable k) ∧
      st2.stack = [Value.number 5]) ∧
    ((∃ g, opSetGlobal ⟨0, [122], 7⟩ ⟨[Value.number 5], initTable⟩
        = StepOutcome.undefinedVariable ⟨0, [122], 7⟩ g) ↔
      tableGet initTable ⟨0, [122], 7⟩ = none) :=
  C6_set_global_spec ⟨[Value.number 5], initTable⟩ ⟨0, [122], 7⟩ tableWF_init

/-- C10: executing OP_DEFINE_GLOBAL binds the name to peek(0) in the globals
table whether or not it was already bound (an existing binding is silently
overwritten), pops the value, never raises an error, and leaves every other
binding unchanged. -/
theorem C10_define_global_spec (st : GlobalsState) (name : ObjString) (v : Value)
    (rest : List Value) (hwf : TableWF st.globals) (hstack : st.stack = v :: rest) :
    (opDefineGlobal name st).stack = rest ∧
      tableGet (opDefineGlobal name st).globals name = some v ∧
      (∀ k, k ≠ name → tableGet (opDefineGlobal name st).globals k = tableGet st.globals k) ∧
      TableWF (opDefineGlobal name st).globals := by
  obtain ⟨hwfS, hgetS, hotherS, _⟩ := tableSet_spec hwf name (peek0 st)
  have hpeek : peek0 st = v := by
    unfold peek0
    rw [hstack]
    rfl
  have hstep : opDefineGlobal name st =
      ⟨st.stack.tail, (tableSet st.globals name (peek0 st)).1⟩ := rfl
  rw [hstep]
  refine ⟨by rw [hstack]; rfl, ?_, hotherS, hwfS⟩
  rw [hgetS, hpeek]

/-- Witness for C10 at a concrete input: defining the same name twice, the
second definition silently overwrites the first. -/
theorem C10_define_global_spec_witness :
    ((opDefineGlobal ⟨1, [97], 3⟩ ⟨[Value.number 2], initTable⟩).stack = [] ∧
      tableGet (opDefineGlobal ⟨1, [97], 3⟩ ⟨[Value.number 2], initTable⟩).globals
          ⟨1, [97], 3⟩ = some (Value.number 2) ∧
      (∀ k, k ≠ ⟨1, [97], 3⟩ →
        tableGet (opDefineGlobal ⟨1, [97], 3⟩ ⟨[Value.number 2], initTable⟩).globals k
          = tableGet initTable k) ∧
      TableWF (opDefineGlobal ⟨1, [97], 3⟩ ⟨[Value.number 2], initTable⟩).globals) :=
  C10_define_global_spec ⟨[Value.number 2], initTable⟩ ⟨1, [97], 3⟩ (Value.number 2) []
    tableWF_init rfl

/-! ### Open upvalues: captureUpvalue and closeUpvalues of vm.c -/

/-- An open upvalue on the VM's intrusive list: the object identity and the
stack slot its location pointer refers to.  The value stack grows upward, so
the C pointer comparison location > local is numeric comparison of slots.
The closed field only matters after an upvalue leaves this list, so it is not
part of the list model. -/
structure OpenUpvalue where
  uid : Nat
  location : Nat
deriving DecidableEq, Repr

/-- captureUpvalue of vm.c, rendered recursively: walk while location > local
(prevUpvalue/upvalue pointer pair in C); return the existing upvalue on an
exact location match, otherwise allocate a fresh upvalue (newUpvalue, identity
`fresh`) and splice it in at the sorted position. -/
def captureUpvalue (openUpvalues : List OpenUpvalue) (localSlot fresh : Nat) :
    OpenUpvalue × List OpenUpvalue :=
  match openUpvalues with
  | [] => (⟨fresh, localSlot⟩, [⟨fresh, localSlot⟩])
  | u :: rest =>
    if localSlot < u.location then
      let r := captureUpvalue rest localSlot fresh
      (r.1, u :: r.2)
    else if u.location = localSlot then
      (u, u :: rest)
    else
      (⟨fresh, localSlot⟩, ⟨fresh, localSlot⟩ :: u :: rest)

/-- closeUpvalues of vm.c: pop every upvalue at the head of the list whose
location is at or above the given slot (each popped upvalue copies the stack
value into its closed field and redirects location there; only the list
structure matters for the invariant). -/
def closeUpvalues (openUpvalues : List OpenUpvalue) (lastSlot : Nat) :
    List OpenUpvalue :=
  match openUpvalues with
  | [] => []
  | u :: rest => if lastSlot ≤ u.location then closeUpvalues rest lastSlot else u :: rest

/-- Strictly descending stack addresses along the list. -/
def UpvaluesSorted (l : List OpenUpvalue) : Prop :=
  l.Pairwise (fun a b => b.location < a.location)

theorem captureUpvalue_mem (l : List OpenUpvalue) (localSlot fresh : Nat) :
    ∀ u2 ∈ (captureUpvalue l localSlot fresh).2, u2 ∈ l ∨ u2 = ⟨fresh, localSlot⟩ := by
  induction l with
  | nil =>
    intro u2 h
    simp only [captureUpvalue, List.mem_singleton] at h
    exact Or.inr h
  | cons u rest ih =>
    intro u2 h
    by_cases h1 : localSlot < u.location
    · simp only [captureUpvalue, if_pos h1] at h
      rcases List.mem_cons.mp h with heq | h
      · rw [heq]
        exact Or.inl (List.mem_cons_self u rest)
      · rcases ih u2 h with h2 | h2
        · exact Or.inl (List.mem_cons_of_mem u h2)
        · exact Or.inr h2
    · by_cases h2 : u.location = localSlot
      · simp only [captureUpvalue, if_neg h1, if_pos h2] at h
        exact Or.inl h
      · simp only [captureUpvalue, if_neg h1, if_neg h2] at h
        rcases List.mem_cons.mp h with heq | h
        · exact Or.inr heq
        · exact Or.inl h

theorem captureUpvalue_sorted {l : List OpenUpvalue} (localSlot fresh : Nat)
    (hs : UpvaluesSorted l) :
    UpvaluesSorted (captureUpvalue l localSlot fresh).2 := by
  induction l with
  | nil =>
    simp only [captureUpvalue]
    exact List.pairwise_singleton _ _
  | cons u rest ih =>
    obtain ⟨hhead, htail⟩ := List.pairwise_cons.mp hs
    by_cases h1 : localSlot < u.location
    · simp only [captureUpvalue, if_pos h1]
      rw [UpvaluesSorted, List.pairwise_cons]
      refine ⟨?_, ih htail⟩
      intro u2 h2
      rcases captureUpvalue_mem rest localSlot fresh u2 h2 with h3 | h3
      · exact hhead u2 h3
      · rw [h3]
        exact h1
    · by_cases h2 : u.location = localSlot
      · simp only [captureUpvalue, if_neg h1, if_pos h2]
        exact hs
      · simp only [captureUpvalue, if_neg h1, if_neg h2]
        rw [UpvaluesSorted, List.pairwise_cons]
        refine ⟨?_, hs⟩
        intro u2 h3
        have hu : u.location < localSlot := by omega
        rcases List.mem_cons.mp h3 with rfl | h3
        · exact hu
        · have := hhead u2 h3
          simp only
          omega

theorem captureUpvalue_location (l : List OpenUpvalue) (localSlot fresh : Nat) :
    (captureUpvalue l localSlot fresh).1.location = localSlot := by
  induction l with
  | nil => rfl
  | cons u rest ih =>
    by_cases h1 : localSlot < u.location
    · simp only [captureUpvalue, if_pos h1]
      exact ih
    · by_cases h2 : u.location = localSlot
      · simp only [captureUpvalue, if_neg h1, if_pos h2]
        exact h2
      · simp only [captureUpvalue, if_neg h1, if_neg h2]

theorem captureUpvalue_exact {l : List OpenUpvalue} (localSlot fresh : Nat)
    (hs : UpvaluesSorted l) :
    ∀ u ∈ l, u.location = localSlot →
      (captureUpvalue l localSlot fresh).1 = u ∧
      (captureUpvalue l localSlot fresh).2 = l := by
  induction l with
  | nil =>
    intro u h
    exact absurd h (List.not_mem_nil u)
  | cons u0 rest ih =>
    obtain ⟨hhead, htail⟩ := List.pairwise_cons.mp hs
    intro u h hloc
    by_cases h1 : localSlot < u0.location
    · have hmem : u ∈ rest := by
        rcases List.mem_cons.mp h with rfl | h2
        · omega
        · exact h2
      obtain ⟨hf, hl⟩ := ih htail u hmem hloc
      simp only [captureUpvalue, if_pos h1]
      exact ⟨hf, by rw [hl]⟩
    · by_cases h2 : u0.location = localSlot
      · have hu : u = u0 := by
          rcases List.mem_cons.mp h with rfl | h3
          · rfl
          · have := hhead u h3
            omega
        simp only [captureUpvalue, if_neg h1, if_pos h2]
        exact ⟨hu.symm, trivial⟩
      · exfalso
        rcases List.mem_cons.mp h with rfl | h3
        · omega
        · have := hhead u h3
          omega

theorem captureUpvalue_insert {l : List OpenUpvalue} (localSlot fresh : Nat)
    (hnew : ∀ u ∈ l, u.location ≠ localSlot) :
    ∀ u2, u2 ∈ (captureUpvalue l localSlot fresh).2 ↔
      (u2 ∈ l ∨ u2 = ⟨fresh, localSlot⟩) := by
  induction l with
  | nil =>
    intro u2
    simp [captureUpvalue]
  | cons u rest ih =>
    intro u2
    by_cases h1 : localSlot < u.location
    · simp only [captureUpvalue, if_pos h1]
      rw [List.mem_cons,
        ih (fun u3 h3 => hnew u3 (List.mem_cons_of_mem u h3)) u2, List.mem_cons]
      tauto
    · by_cases h2 : u.location = localSlot
      · exact absurd h2 (hnew u (List.mem_cons_self u rest))
      · simp only [captureUpvalue, if_neg h1, if_neg h2]
        rw [List.mem_cons, List.mem_cons]
        tauto

theorem closeUpvalues_sorted {l : List OpenUpvalue} (lastSlot : Nat)
    (hs : UpvaluesSorted l) : UpvaluesSorted (closeUpvalues l lastSlot) := by
  induction l with
  | nil => exact hs
  | cons u rest ih =>
    obtain ⟨_, htail⟩ := List.pairwise_cons.mp hs
    by_cases h1 : lastSlot ≤ u.location
    · simp only [closeUpvalues, if_pos h1]
      exact ih htail
    · simp only [closeUpvalues, if_neg h1]
      exact hs

theorem closeUpvalues_below {l : List OpenUpvalue} (lastSlot : Nat)
    (hs : UpvaluesSorted l) :
    ∀ u ∈ closeUpvalues l lastSlot, u.location < lastSlot := by
  induction l with
  | nil =>
    intro u h
    exact absurd h (List.not_mem_nil u)
  | cons u0 rest ih =>
    obtain ⟨hhead, htail⟩ := List.pairwise_cons.mp hs
    intro u h
    by_cases h1 : lastSlot ≤ u0.location
    · simp only [closeUpvalues, if_pos h1] at h
      exact ih htail u h
    · simp only [closeUpvalues, if_neg h1] at h
      rcases List.mem_cons.mp h with rfl | h2
      · omega
      · have := hhead u h2
        omega

theorem closeUpvalues_keeps {l : List OpenUpvalue} (lastSlot : Nat) :
    ∀ u ∈ l, u.location < lastSlot → u ∈ closeUpvalues l lastSlot := by
  induction l with
  | nil =>
    intro u h
    exact absurd h (List.not_mem_nil u)
  | cons u0 rest ih =>
    intro u h hloc
    by_cases h1 : lastSlot ≤ u0.location
    · simp only [closeUpvalues, if_pos h1]
      rcases List.mem_cons.mp h with rfl | h2
      · omega
      · exact ih u h2 hloc
    · simp only [closeUpvalues, if_neg h1]
      exact h

/-- C7: the open-upvalue list invariant — strictly descending stack addresses
and at most one entry per slot — is preserved by captureUpvalue (which returns
the existing upvalue unchanged on an exact location match and otherwise
inserts a fresh open upvalue at the sorted position) and by closeUpvalues
(which removes exactly the upvalues whose location is at or above the given
slot). -/
theorem C7_open_upvalue_invariants (l : List OpenUpvalue) (localSlot fresh lastSlot : Nat)
    (hs : UpvaluesSorted l) :
    UpvaluesSorted (captureUpvalue l localSlot fresh).2 ∧
      (captureUpvalue l localSlot fresh).2.Pairwise (fun a b => a.location ≠ b.location) ∧
      (captureUpvalue l localSlot fresh).1.location = localSlot ∧
      (∀ u ∈ l, u.location = localSlot →
        (captureUpvalue l localSlot fresh).1 = u ∧
        (captureUpvalue l localSlot fresh).2 = l) ∧
      ((∀ u ∈ l, u.location ≠ localSlot) →
        ∀ u2, u2 ∈ (captureUpvalue l localSlot fresh).2 ↔
          (u2 ∈ l ∨ u2 = ⟨fresh, localSlot⟩)) ∧
      UpvaluesSorted (closeUpvalues l lastSlot) ∧
      (closeUpvalues l lastSlot).Pairwise (fun a b => a.location ≠ b.location) ∧
      (∀ u ∈ closeUpvalues l lastSlot, u.location < lastSlot) ∧
      (∀ u ∈ l, u.location < lastSlot → u ∈ closeUpvalues l lastSlot) := by
  have hcap := captureUpvalue_sorted localSlot fresh hs
  have hclo := closeUpvalues_sorted lastSlot hs
  refine ⟨hcap, ?_, captureUpvalue_location l localSlot fresh,
    captureUpvalue_exact localSlot fresh hs, captureUpvalue_insert localSlot fresh,
    hclo, ?_, closeUpvalues_below lastSlot hs, closeUpvalues_keeps lastSlot⟩
  · exact List.Pairwise.imp (fun h => by omega) hcap
  · exact List.Pairwise.imp (fun h => by omega) hclo

/-- Witness for C7 at a concrete input: a two-element sorted list, capturing a
slot between the two and closing from slot 4. -/
theorem C7_open_upvalue_invariants_witness :
    UpvaluesSorted (captureUpvalue [⟨0, 5⟩, ⟨1, 3⟩] 4 9).2 ∧
      (captureUpvalue [⟨0, 5⟩, ⟨1, 3⟩] 4 9).2.Pairwise
        (fun a b => a.location ≠ b.location) ∧
      (captureUpvalue [⟨0, 5⟩, ⟨1, 3⟩] 4 9).1.location = 4 ∧
      (∀ u ∈ [(⟨0, 5⟩ : OpenUpvalue), ⟨1, 3⟩], u.location = 4 →
        (captureUpvalue [⟨0, 5⟩, ⟨1, 3⟩] 4 9).1 = u ∧
        (captureUpvalue [⟨0, 5⟩, ⟨1, 3⟩] 4 9).2 = [⟨0, 5⟩, ⟨1, 3⟩]) ∧
      ((∀ u ∈ [(⟨0, 5⟩ : OpenUpvalue), ⟨1, 3⟩], u.location ≠ 4) →
        ∀ u2, u2 ∈ (captureUpvalue [⟨0, 5⟩, ⟨1, 3⟩] 4 9).2 ↔
          (u2 ∈ [(⟨0, 5⟩ : OpenUpvalue), ⟨1, 3⟩] ∨ u2 = ⟨9, 4⟩)) ∧
      UpvaluesSorted (closeUpvalues [⟨0, 5⟩, ⟨1, 3⟩] 4) ∧
      (closeUpvalues [⟨0, 5⟩, ⟨1, 3⟩] 4).Pairwise (fun a b => a.location ≠ b.location) ∧
      (∀ u ∈ closeUpvalues [⟨0, 5⟩, ⟨1, 3⟩] 4, u.location < 4) ∧
      (∀ u ∈ [(⟨0, 5⟩ : OpenUpvalue), ⟨1, 3⟩], u.location < 4 →
        u ∈ closeUpvalues [⟨0, 5⟩, ⟨1, 3⟩] 4) :=
  C7_open_upvalue_invariants [⟨0, 5⟩, ⟨1, 3⟩] 4 9 4
    (by rw [UpvaluesSorted]; decide)

/-! ### callValue, call and the OP_GET_SUPER case of the vm.c run loop -/

/-- FRAMES_MAX of vm.h. -/
def FRAMES_MAX : Nat := 64

/-- One call frame of vm.h: the closure being executed (arity and function
identity), its instruction pointer, and the absolute base index of its stack
window (frame->slots = stackTop - argCount - 1). -/
structure CallFrame where
  closureArity : Nat
  closureFid : Nat
  ip : Nat
  slots : Nat
deriving DecidableEq, Repr

/-- The VM state fragment touched by callValue: the value stack (head = top of
stack), the frame stack (head = innermost frame), and a supply of fresh
object identities for newInstance. -/
structure CallState where
  stack : List Value
  frames : List CallFrame
  nextObj : Nat

/-- The runtime errors reachable from callValue. -/
inductive CallError where
  | expectedArguments : (want got : Nat) → CallError
  | stackOverflow : CallError
  | notCallable : CallError
deriving DecidableEq, Repr

/-- Result of callValue: the new state, or runtimeError with
INTERPRET_RUNTIME_ERROR. -/
inductive CallResult where
  | ok : CallState → CallResult
  | err : CallError → CallResult

/-- AS_CLOSURE of object.h is an unchecked cast in C; the default branches are
never reached on the paths modelled here. -/
def asClosureArity : Value → Nat
  | Value.obj (ObjPayload.closure arity _) => arity
  | _ => 0

/-- Function identity of AS_CLOSURE; see asClosureArity. -/
def asClosureFid : Value → Nat
  | Value.obj (ObjPayload.closure _ fid) => fid
  | _ => 0

/-- call of vm.c: arity check, FRAMES_MAX check, then push a new frame with
ip at the start of the function's chunk and slots = stackTop - argCount - 1. -/
def call (st : CallState) (closureArity closureFid argCount : Nat) : CallResult :=
  if argCount ≠ closureArity then
    CallResult.err (CallError.expectedArguments closureArity argCount)
  else if st.frames.length = FRAMES_MAX then
    CallResult.err CallError.stackOverflow
  else
    CallResult.ok ⟨st.stack,
      ⟨closureArity, closureFid, 0, st.stack.length - argCount - 1⟩ :: st.frames,
      st.nextObj⟩

/-- callValue of vm.c.  `natives` resolves NativeFn function pointers,
`classMethods` resolves each class identity to its methods table, and
`initString` is the interned init string.  stackTop[-argCount - 1] is index
argCount of the stack list (head = top). -/
def callValue (natives : Nat → Nat → List Value → Value) (classMethods : Nat → Table)
    (initString : ObjString) (st : CallState) (callee : Value) (argCount : Nat) :
    CallResult :=
  match callee with
  | Value.obj (ObjPayload.boundMethod receiver marity mfid) =>
    call ⟨st.stack.set argCount receiver, st.frames, st.nextObj⟩ marity mfid argCount
  | Value.obj (ObjPayload.klass cid) =>
    let st2 : CallState :=
      ⟨st.stack.set argCount (Value.obj (ObjPayload.inst st.nextObj cid)), st.frames,
        st.nextObj + 1⟩
    match tableGet (classMethods cid) initString with
    | some initializer =>
      call st2 (asClosureArity initializer) (asClosureFid initializer) argCount
    | none =>
      if argCount ≠ 0 then CallResult.err (CallError.expectedArguments 0 argCount)
      else CallResult.ok st2
  | Value.obj (ObjPayload.closure arity fid) => call st arity fid argCount
  | Value.obj (ObjPayload.native fid) =>
    let result := natives fid argCount ((st.stack.take argCount).reverse)
    CallResult.ok ⟨result :: st.stack.drop (argCount + 1), st.frames, st.nextObj⟩
  | _ => CallResult.err CallError.notCallable

/-- C9: calling a native function performs no arity check and pushes no call
frame: for every argCount, callValue on a NativeFunction invokes the native
with (argCount, stack slice of the top argCount values below the top), then
replaces the callee and all arguments with the single returned value, and it
can never produce an Expected-arguments or Stack-overflow (or any other)
runtime error. -/
theorem C9_native_call_spec (natives : Nat → Nat → List Value → Value)
    (classMethods : Nat → Table) (initString : ObjString) (st : CallState)
    (fid argCount : Nat) :
    callValue natives classMethods initString st (Value.obj (ObjPayload.native fid)) argCount
        = CallResult.ok
            ⟨natives fid argCount ((st.stack.take argCount).reverse)
                :: st.stack.drop (argCount + 1),
              st.frames, st.nextObj⟩ ∧
      (∀ e, callValue natives classMethods initString st
          (Value.obj (ObjPayload.native fid)) argCount ≠ CallResult.err e) ∧
      (∀ st2, callValue natives classMethods initString st
            (Value.obj (ObjPayload.native fid)) argCount = CallResult.ok st2 →
          st2.frames = st.frames ∧
          st2.stack = natives fid argCount ((st.stack.take argCount).reverse)
              :: st.stack.drop (argCount + 1)) := by
  refine ⟨rfl, ?_, ?_⟩
  · intro e h
    exact CallResult.noConfusion h
  · intro st2 h
    have : CallState.mk
        (natives fid argCount ((st.stack.take argCount).reverse)
          :: st.stack.drop (argCount + 1)) st.frames st.nextObj = st2 := by
      cases h
      rfl
    rw [← this]
    exact ⟨rfl, rfl⟩

/-! ### The OP_GET_SUPER case and its missing break (vm.c run loop) -/

deriving instance DecidableEq for Value

deriving instance DecidableEq for ObjPayload

/-- Modelled from the spec: valuesEqual of value.c, whose source file is not
part of the provided sources (spec section 3: equality is same variant with
same contents; for heap objects reference equality, which the interning of
strings makes structural for strings).  The fallthrough result below does not
depend on which Bool this returns. -/
def valuesEqual (a b : Value) : Bool :=
  match a, b with
  | Value.nil, Value.nil => true
  | Value.boolean x, Value.boolean y => x == y
  | Value.number x, Value.number y => x == y
  | Value.obj x, Value.obj y => x == y
  | _, _ => false

/-- AS_CLASS of object.h, an unchecked cast in C; the default branch is never
reached on the modelled paths. -/
def asClassCid : Value → Nat
  | Value.obj (ObjPayload.klass cid) => cid
  | _ => 0

/-- bindMethod of vm.c: look the name up in the class's methods table; on a
miss raise the Undefined-property runtime error (`none`); on a hit pop the
receiver (the top of `stack`) and push a BoundMethod pairing it with the
method closure. -/
def bindMethod (classMethods : Nat → Table) (cid : Nat) (name : ObjString)
    (stack : List Value) : Option (List Value) :=
  match tableGet (classMethods cid) name with
  | none => none
  | some m =>
    some (Value.obj (ObjPayload.boundMethod (stack.headD Value.nil)
      (asClosureArity m) (asClosureFid m)) :: stack.tail)

/-- The OP_GET_SUPER case of the vm.c run loop, exactly as written: pop the
superclass (AS_CLASS(pop())), bindMethod on it; on failure return the runtime
error (`none`).  The case block ends without a break, so on success control
falls through into the OP_EQUAL case body — pop two values and push their
equality — before the next instruction is dispatched. -/
def opGetSuper (classMethods : Nat → Table) (name : ObjString) (stack : List Value) :
    Option (List Value) :=
  match bindMethod classMethods (asClassCid (stack.headD Value.nil)) name stack.tail with
  | none => none
  | some stack2 =>
    let b := stack2.headD Value.nil
    let a := stack2.tail.headD Value.nil
    some (Value.boolean (valuesEqual a b) :: stack2.tail.tail)

/-- A concrete methods table binding the name m (identity 2, hash 0) to a
closure of arity 0 with function identity 7, for exercising OP_GET_SUPER. -/
def superTestMethods : Nat → Table :=
  fun _ => (tableSet initTable ⟨2, [109], 0⟩ (Value.obj (ObjPayload.closure 0 7))).1

/-- C2: refuted on the code.  Executing OP_GET_SUPER on the stack
[superclass, instance, value-below] (top first) with a method that exists
does pop the superclass and bind the method on the instance, but the case has
no break and falls through into OP_EQUAL, which pops the bound method and the
value below it and pushes a boolean.  The net effect replaces three stack
values by one boolean — not the claimed replacement of instance and
superclass by the bound method with nothing else popped or pushed before the
next instruction is dispatched. -/
theorem C2_get_super_fallthrough :
    opGetSuper superTestMethods ⟨2, [109], 0⟩
        [Value.obj (ObjPayload.klass 0), Value.obj (ObjPayload.inst 5 0), Value.number 3]
      = some [Value.boolean false] ∧
    opGetSuper superTestMethods ⟨2, [109], 0⟩
        [Value.obj (ObjPayload.klass 0), Value.obj (ObjPayload.inst 5 0), Value.number 3]
      ≠ some [Value.obj (ObjPayload.boundMethod (Value.obj (ObjPayload.inst 5 0)) 0 7),
          Value.number 3] := by
  constructor
  · decide
  · decide

/-! ### tableFindString: content-based probing -/

/-- Soundness of tableFindString: any returned string is stored as a key and
has the probed bytes and hash. -/
theorem tableFindStringAux_sound {entries : List Entry} {capacity : Nat}
    {c : List Nat} {h : Nat} (hcap : 0 < capacity) :
    ∀ fuel index, index < capacity →
      ∀ s, tableFindStringAux entries capacity c h fuel index = some s →
        (∃ j, j < capacity ∧ (entries.getD j emptyEntry).key = some s) ∧
          s.chars = c ∧ s.hash = h := by
  intro fuel
  induction fuel with
  | zero =>
    intro index _ s hs
    simp [tableFindStringAux] at hs
  | succ n ih =>
    intro index hidx s hs
    rw [tableFindStringAux] at hs
    rcases hk : (entries.getD index emptyEntry).key with _ | k
    · rcases hv : (entries.getD index emptyEntry).value with _ | b | q | o
      · simp only [hk, hv] at hs
        exact Option.noConfusion hs
      all_goals
        simp only [hk, hv] at hs
        exact ih _ (Nat.mod_lt _ hcap) s hs
    · simp only [hk] at hs
      by_cases hcond : k.chars.length = c.length ∧ k.hash = h ∧ k.chars = c
      · rw [if_pos hcond] at hs
        obtain rfl : k = s := Option.some.inj hs
        exact ⟨⟨index, hidx, hk⟩, hcond.2.2, hcond.2.1⟩
      · rw [if_neg hcond] at hs
        exact ih _ (Nat.mod_lt _ hcap) s hs

/-- Completeness of tableFindString for stored bytes: when slot `i` holds a
key with the probed bytes and hash, and no two stored keys share byte
sequences, probing returns exactly that key. -/
theorem tableFindStringAux_found {entries : List Entry} {capacity : Nat}
    {c : List Nat} {h : Nat} {k : ObjString} (hcap : 0 < capacity)
    {i : Nat} (hi : i < capacity) (hk : (entries.getD i emptyEntry).key = some k)
    (hchars : k.chars = c) (hhash : k.hash = h)
    (huniq : ∀ j, j < capacity → j ≠ i → (entries.getD j emptyEntry).key ≠ some k)
    (hcuniq : ∀ j, j < capacity → ∀ k2, (entries.getD j emptyEntry).key = some k2 →
      k2.chars = c → k2 = k)
    (hchain : ∀ d, d < probeDist capacity (h % capacity) i →
      (entries.getD (probeAt capacity (h % capacity) d) emptyEntry).isFree = false) :
    ∀ n d0 fuel, d0 + n = probeDist capacity (h % capacity) i → n < fuel →
      tableFindStringAux entries capacity c h fuel (probeAt capacity (h % capacity) d0)
        = some k := by
  have hstart : h % capacity < capacity := Nat.mod_lt _ hcap
  intro n
  induction n with
  | zero =>
    intro d0 fuel hd hfuel
    obtain ⟨m, rfl⟩ : ∃ m, fuel = m + 1 := ⟨fuel - 1, by omega⟩
    have hAt : probeAt capacity (h % capacity) d0 = i := by
      have hd0 : d0 = probeDist capacity (h % capacity) i := by omega
      rw [hd0]
      exact probeAt_probeDist hstart hi
    rw [hAt, tableFindStringAux]
    simp only [hk]
    rw [if_pos ⟨by rw [hchars], hhash, hchars⟩]
  | succ n ih =>
    intro d0 fuel hd hfuel
    obtain ⟨m, rfl⟩ : ∃ m, fuel = m + 1 := ⟨fuel - 1, by omega⟩
    have hDlt : probeDist capacity (h % capacity) i < capacity := probeDist_lt hcap _ _
    have hd0D : d0 < probeDist capacity (h % capacity) i := by omega
    have hnotfree := hchain d0 hd0D
    have hne : probeAt capacity (h % capacity) d0 ≠ i := by
      intro hcontr
      have hAtD := probeAt_probeDist hstart hi
      have heq : d0 = probeDist capacity (h % capacity) i := by
        refine probeAt_inj hstart (by omega) hDlt ?_
        rw [hcontr, hAtD]
      omega
    rw [tableFindStringAux]
    rcases hkey : (entries.getD (probeAt capacity (h % capacity) d0) emptyEntry).key
      with _ | k2
    · rcases hval : (entries.getD (probeAt capacity (h % capacity) d0) emptyEntry).value
        with _ | b | q | o
      · exact absurd (isFree_iff.mpr ⟨hkey, hval⟩) (by rw [hnotfree]; simp)
      all_goals
        simp only [hkey, hval, probeAt_succ]
        exact ih (d0 + 1) m (by omega) (by omega)
    · have hcond : ¬(k2.chars.length = c.length ∧ k2.hash = h ∧ k2.chars = c) := by
        rintro ⟨_, _, hcc⟩
        have hk2k : k2 = k := hcuniq _ (probeAt_lt hcap _ _) k2 hkey hcc
        rw [hk2k] at hkey
        exact huniq _ (probeAt_lt hcap _ _) hne hkey
      simp only [hkey]
      rw [if_neg hcond, probeAt_succ]
      exact ih (d0 + 1) m (by omega) (by omega)

/-- Completeness of tableFindString for absent bytes: when no stored key has
the probed byte sequence, probing reaches the first genuinely free slot of the
sequence and reports none. -/
theorem tableFindStringAux_absent {entries : List Entry} {capacity : Nat}
    {c : List Nat} {h : Nat} (hcap : 0 < capacity)
    (habs : ∀ j, j < capacity → ∀ k2, (entries.getD j emptyEntry).key = some k2 →
      k2.chars ≠ c)
    {F : Nat}
    (hFfree : (entries.getD (probeAt capacity (h % capacity) F) emptyEntry).isFree = true)
    (hFmin : ∀ d, d < F →
      (entries.getD (probeAt capacity (h % capacity) d) emptyEntry).isFree = false) :
    ∀ n d0 fuel, d0 + n = F → n < fuel →
      tableFindStringAux entries capacity c h fuel (probeAt capacity (h % capacity) d0)
        = none := by
  intro n
  induction n with
  | zero =>
    intro d0 fuel hd hfuel
    obtain ⟨m, rfl⟩ : ∃ m, fuel = m + 1 := ⟨fuel - 1, by omega⟩
    obtain rfl : d0 = F := by omega
    obtain ⟨hkey, hval⟩ := isFree_iff.mp hFfree
    rw [tableFindStringAux]
    simp only [hkey, hval]
  | succ n ih =>
    intro d0 fuel hd hfuel
    obtain ⟨m, rfl⟩ : ∃ m, fuel = m + 1 := ⟨fuel - 1, by omega⟩
    have hd0F : d0 < F := by omega
    have hnotfree := hFmin d0 hd0F
    rw [tableFindStringAux]
    rcases hkey : (entries.getD (probeAt capacity (h % capacity) d0) emptyEntry).key
      with _ | k2
    · rcases hval : (entries.getD (probeAt capacity (h % capacity) d0) emptyEntry).value
        with _ | b | q | o
      · exact absurd (isFree_iff.mpr ⟨hkey, hval⟩) (by rw [hnotfree]; simp)
      all_goals
        simp only [hkey, hval, probeAt_succ]
        exact ih (d0 + 1) m (by omega) (by omega)
    · have hcond : ¬(k2.chars.length = c.length ∧ k2.hash = h ∧ k2.chars = c) := by
        rintro ⟨_, _, hcc⟩
        exact habs _ (probeAt_lt hcap _ _) k2 hkey hcc
      simp only [hkey]
      rw [if_neg hcond, probeAt_succ]
      exact ih (d0 + 1) m (by omega) (by omega)

/-- tableFindString finds a stored key with the probed bytes (under content
uniqueness of the stored keys). -/
theorem tableFindString_found {t : Table} (hwf : TableWF t) {c : List Nat} {h : Nat}
    {k : ObjString} {i : Nat} (hi : i < t.capacity)
    (hk : (t.entries.getD i emptyEntry).key = some k)
    (hchars : k.chars = c) (hhash : k.hash = h)
    (hcuniq : ∀ j, j < t.capacity → ∀ k2, (t.entries.getD j emptyEntry).key = some k2 →
      k2.chars = c → k2 = k) :
    tableFindString t c h = some k := by
  have hcap : 0 < t.capacity := by omega
  have hstart : h % t.capacity < t.capacity := Nat.mod_lt _ hcap
  have hcnt : t.count ≠ 0 := by
    have hpos : 0 < t.entries.countP (fun e => !e.isFree) := by
      rw [List.countP_pos_iff]
      refine ⟨t.entries.getD i emptyEntry, ?_, ?_⟩
      · rw [getD_eq_getElem (by rw [hwf.len_eq]; exact hi)]
        exact List.getElem_mem _
      · rw [isFree_false_of_key hk]
        rfl
    have := hwf.count_eq
    omega
  have h0 : probeAt t.capacity (h % t.capacity) 0 = h % t.capacity := by
    unfold probeAt
    rw [Nat.add_zero, Nat.mod_eq_of_lt hstart]
  have hchain : ∀ d, d < probeDist t.capacity (h % t.capacity) i →
      (t.entries.getD (probeAt t.capacity (h % t.capacity) d) emptyEntry).isFree
        = false := by
    have := hwf.chain i hi k hk
    rw [hhash] at this
    exact this
  have := tableFindStringAux_found hcap hi hk hchars hhash
    (fun j hj hji => hwf.uniq i j hi hj (Ne.symm hji) k hk) hcuniq hchain
    (probeDist t.capacity (h % t.capacity) i) 0 t.capacity (by omega)
    (probeDist_lt hcap _ _)
  rw [h0] at this
  unfold tableFindString
  rw [if_neg hcnt]
  exact this

/-- tableFindString misses byte sequences not stored under any key. -/
theorem tableFindString_absent {t : Table} (hwf : TableWF t) {c : List Nat} {h : Nat}
    (habs : ∀ j, j < t.capacity → ∀ k2, (t.entries.getD j emptyEntry).key = some k2 →
      k2.chars ≠ c) :
    tableFindString t c h = none := by
  by_cases hcnt : t.count = 0
  · unfold tableFindString
    rw [if_pos hcnt]
  have hcap : 0 < t.capacity := capacity_pos_of_count hwf hcnt
  have hstart : h % t.capacity < t.capacity := Nat.mod_lt _ hcap
  obtain ⟨j, hj, hjfree⟩ := exists_free_slot hwf hcap
  have hPex : ∃ d, (t.entries.getD (probeAt t.capacity (h % t.capacity) d)
      emptyEntry).isFree = true := by
    refine ⟨probeDist t.capacity (h % t.capacity) j, ?_⟩
    rw [probeAt_probeDist hstart hj]
    exact hjfree
  classical
  have hFfree := Nat.find_spec hPex
  have hFmin : ∀ d, d < Nat.find hPex →
      (t.entries.getD (probeAt t.capacity (h % t.capacity) d) emptyEntry).isFree
        = false := by
    intro d hd
    have := Nat.find_min hPex hd
    simpa using this
  have hFlt : Nat.find hPex < t.capacity := by
    have h1 : Nat.find hPex ≤ probeDist t.capacity (h % t.capacity) j := by
      apply Nat.find_min'
      rw [probeAt_probeDist hstart hj]
      exact hjfree
    have := probeDist_lt hcap (h % t.capacity) j
    omega
  have h0 : probeAt t.capacity (h % t.capacity) 0 = h % t.capacity := by
    unfold probeAt
    rw [Nat.add_zero, Nat.mod_eq_of_lt hstart]
  have := tableFindStringAux_absent hcap habs hFfree hFmin (Nat.find hPex) 0 t.capacity
    (by omega) (by omega)
  rw [h0] at this
  unfold tableFindString
  rw [if_neg hcnt]
  exact this

/-! ### String interning (object.c) -/

/-- hashString of object.c: 32-bit FNV-1a over the bytes, with uint32_t
wrap-around. -/
def hashString (chars : List Nat) : Nat :=
  chars.foldl (fun h b => ((h ^^^ b) * 16777619) % 4294967296) 2166136261

/-- The heap state relevant to interning: the vm.strings intern table and a
supply of fresh object identities (addresses). -/
structure StringHeap where
  strings : Table
  nextId : Nat

/-- allocateString of object.c: build the ObjString (fresh identity, given
bytes and hash) and add it to vm.strings with a nil value. -/
def allocateString (st : StringHeap) (chars : List Nat) (hash : Nat) :
    ObjString × StringHeap :=
  let s : ObjString := ⟨st.nextId, chars, hash⟩
  (s, ⟨(tableSet st.strings s Value.nil).1, st.nextId + 1⟩)

/-- takeString of object.c: hash the buffer; if the bytes are already interned,
free the incoming buffer (the Bool records that FREE_ARRAY ran) and return the
interned object; otherwise take ownership and allocate. -/
def takeString (st : StringHeap) (chars : List Nat) : ObjString × Bool × StringHeap :=
  let hash := hashString chars
  match tableFindString st.strings chars hash with
  | some interned => (interned, true, st)
  | none =>
    let r := allocateString st chars hash
    (r.1, false, r.2)

/-- copyString of object.c: same lookup; on a miss the borrowed bytes are
copied into a fresh buffer and allocated (the copy itself has no observable
effect in this model). -/
def copyString (st : StringHeap) (chars : List Nat) : ObjString × StringHeap :=
  let hash := hashString chars
  match tableFindString st.strings chars hash with
  | some interned => (interned, st)
  | none => allocateString st chars hash

/-- Well-formedness of the intern set: vm.strings is a well-formed table whose
keys record their own FNV-1a hash, no two keys share a byte sequence, and all
key identities are below the allocation cursor. -/
structure HeapWF (st : StringHeap) : Prop where
  twf : TableWF st.strings
  hashOk : ∀ k : ObjString, tableGet st.strings k ≠ none → k.hash = hashString k.chars
  contentUniq : ∀ k1 k2 : ObjString, tableGet st.strings k1 ≠ none →
    tableGet st.strings k2 ≠ none → k1.chars = k2.chars → k1 = k2
  freshOk : ∀ k : ObjString, tableGet st.strings k ≠ none → k.sid < st.nextId

theorem heapWF_init : HeapWF ⟨initTable, 0⟩ := by
  refine ⟨tableWF_init, ?_, ?_, ?_⟩
  · intro k hk
    exact absurd rfl hk
  · intro k1 k2 hk1 _ _
    exact absurd rfl hk1
  · intro k hk
    exact absurd rfl hk

/-- A key is bound exactly when some slot stores it. -/
theorem tableGet_ne_none_iff {t : Table} (hwf : TableWF t) {k : ObjString} :
    tableGet t k ≠ none ↔ ∃ j, j < t.capacity ∧ (t.entries.getD j emptyEntry).key = some k := by
  constructor
  · intro h
    rcases hg : tableGet t k with _ | v
    · exact absurd hg h
    obtain ⟨j, hj, he⟩ := (tableGet_some_iff hwf).mp hg
    exact ⟨j, by rw [← hwf.len_eq]; exact hj, by rw [he]⟩
  · rintro ⟨j, hj, he⟩
    intro hg
    exact (tableGet_none_iff hwf).mp hg j hj he

/-- Lookup by content agrees with lookup by key under the heap invariant: the
intern set finds the (unique) stored key with the probed bytes. -/
theorem findString_of_bound {st : StringHeap} (hwf : HeapWF st) {k : ObjString}
    (hbound : tableGet st.strings k ≠ none) :
    tableFindString st.strings k.chars (hashString k.chars) = some k := by
  obtain ⟨j, hj, hje⟩ := (tableGet_ne_none_iff hwf.twf).mp hbound
  refine tableFindString_found hwf.twf hj hje rfl (hwf.hashOk k hbound) ?_
  intro j2 hj2 k2 hk2 hcc
  refine hwf.contentUniq k2 k ?_ hbound hcc
  exact (tableGet_ne_none_iff hwf.twf).mpr ⟨j2, hj2, hk2⟩

/-- Lookup by content misses byte sequences no stored key has. -/
theorem findString_of_unbound {st : StringHeap} (hwf : HeapWF st) {c : List Nat} {h : Nat}
    (habs : ∀ k : ObjString, tableGet st.strings k ≠ none → k.chars ≠ c) :
    tableFindString st.strings c h = none := by
  refine tableFindString_absent hwf.twf ?_
  intro j hj k2 hk2
  exact habs k2 ((tableGet_ne_none_iff hwf.twf).mpr ⟨j, hj, hk2⟩)

/-- One string construction: copyString or takeString (the freed flag
dropped). -/
def stringConstruct (useTake : Bool) (st : StringHeap) (chars : List Nat) :
    ObjString × StringHeap :=
  if useTake then
    let r := takeString st chars
    (r.1, r.2.2)
  else copyString st chars

/-- Both constructors return an interned string with the requested bytes,
preserve the heap invariant, and never evict an existing intern entry. -/
theorem stringConstruct_spec {st : StringHeap} (hwf : HeapWF st) (useTake : Bool)
    (c : List Nat) :
    HeapWF (stringConstruct useTake st c).2 ∧
      (stringConstruct useTake st c).1.chars = c ∧
      tableGet (stringConstruct useTake st c).2.strings (stringConstruct useTake st c).1
        ≠ none ∧
      (∀ k : ObjString, tableGet st.strings k ≠ none →
        tableGet (stringConstruct useTake st c).2.strings k ≠ none) := by
  rcases hfind : tableFindString st.strings c (hashString c) with _ | s
  · -- not interned yet: allocate a fresh string and add it to vm.strings
    have hnew : ∀ k : ObjString, tableGet st.strings k ≠ none → k.chars ≠ c := by
      intro k hk hcc
      have := findString_of_bound hwf hk
      rw [hcc, hfind] at this
      exact Option.noConfusion this
    obtain ⟨hwfS, hgetS, hotherS, _⟩ :=
      tableSet_spec hwf.twf ⟨st.nextId, c, hashString c⟩ Value.nil
    have hres : stringConstruct useTake st c =
        (⟨st.nextId, c, hashString c⟩,
          ⟨(tableSet st.strings ⟨st.nextId, c, hashString c⟩ Value.nil).1,
            st.nextId + 1⟩) := by
      unfold stringConstruct takeString copyString allocateString
      cases useTake <;> simp only [hfind] <;> rfl
    rw [hres]
    have hboundCases : ∀ k : ObjString,
        tableGet (tableSet st.strings ⟨st.nextId, c, hashString c⟩ Value.nil).1 k ≠ none →
        k = ⟨st.nextId, c, hashString c⟩ ∨ tableGet st.strings k ≠ none := by
      intro k hk
      by_cases hks : k = ⟨st.nextId, c, hashString c⟩
      · exact Or.inl hks
      · rw [hotherS k hks] at hk
        exact Or.inr hk
    refine ⟨⟨hwfS, ?_, ?_, ?_⟩, rfl, ?_, ?_⟩
    · intro k hk
      rcases hboundCases k hk with rfl | hold
      · rfl
      · exact hwf.hashOk k hold
    · intro k1 k2 hk1 hk2 hcc
      rcases hboundCases k1 hk1 with rfl | hold1 <;> rcases hboundCases k2 hk2 with rfl | hold2
      · rfl
      · exact absurd (by simpa using hcc.symm) (hnew k2 hold2)
      · exact absurd (by simpa using hcc) (hnew k1 hold1)
      · exact hwf.contentUniq k1 k2 hold1 hold2 hcc
    · intro k hk
      rcases hboundCases k hk with rfl | hold
      · simp
      · have := hwf.freshOk k hold
        show k.sid < st.nextId + 1
        omega
    · rw [hgetS]
      simp
    · intro k hk
      by_cases hks : k = ⟨st.nextId, c, hashString c⟩
      · rw [hks, hgetS]
        simp
      · rw [hotherS k hks]
        exact hk
  · -- already interned: both constructors return the existing object
    have hsound : (∃ j, j < st.strings.capacity ∧
        (st.strings.entries.getD j emptyEntry).key = some s) ∧
        s.chars = c ∧ s.hash = hashString c := by
      have hcnt : st.strings.count ≠ 0 := by
        intro hcnt
        unfold tableFindString at hfind
        rw [if_pos hcnt] at hfind
        exact Option.noConfusion hfind
      have hcap : 0 < st.strings.capacity := capacity_pos_of_count hwf.twf hcnt
      have hfind2 : tableFindStringAux st.strings.entries st.strings.capacity c
          (hashString c) st.strings.capacity (hashString c % st.strings.capacity)
          = some s := by
        unfold tableFindString at hfind
        rw [if_neg hcnt] at hfind
        exact hfind
      exact tableFindStringAux_sound hcap st.strings.capacity _ (Nat.mod_lt _ hcap) s hfind2
    have hres : stringConstruct useTake st c = (s, st) := by
      unfold stringConstruct takeString copyString
      cases useTake <;> simp only [hfind] <;> rfl
    rw [hres]
    exact ⟨hwf, hsound.2.1, (tableGet_ne_none_iff hwf.twf).mpr hsound.1,
      fun k hk => hk⟩

/-- runConstructions: perform a sequence of string constructions, returning
the constructed objects in order. -/
def runConstructions (st : StringHeap) : List (Bool × List Nat) → List ObjString × StringHeap
  | [] => ([], st)
  | (b, c) :: rest =>
    let r := stringConstruct b st c
    let rr := runConstructions r.2 rest
    (r.1 :: rr.1, rr.2)

theorem runConstructions_wf {st : StringHeap} (hwf : HeapWF st) :
    ∀ reqs : List (Bool × List Nat),
      HeapWF (runConstructions st reqs).2 ∧
      (∀ k : ObjString, tableGet st.strings k ≠ none →
        tableGet (runConstructions st reqs).2.strings k ≠ none) ∧
      (∀ p ∈ (runConstructions st reqs).1.zip reqs,
        tableGet (runConstructions st reqs).2.strings p.1 ≠ none ∧ p.1.chars = p.2.2) := by
  intro reqs
  induction reqs generalizing st with
  | nil =>
    refine ⟨hwf, fun k hk => hk, ?_⟩
    intro p hp
    simp [runConstructions] at hp
  | cons q rest ih =>
    obtain ⟨b, c⟩ := q
    obtain ⟨hwf1, hchars1, hbound1, hmono1⟩ := stringConstruct_spec hwf b c
    obtain ⟨hwfR, hmonoR, hmemR⟩ := ih hwf1
    have hrun : runConstructions st ((b, c) :: rest)
        = ((stringConstruct b st c).1 ::
            (runConstructions (stringConstruct b st c).2 rest).1,
          (runConstructions (stringConstruct b st c).2 rest).2) := rfl
    rw [hrun]
    refine ⟨hwfR, ?_, ?_⟩
    · intro k hk
      exact hmonoR k (hmono1 k hk)
    · intro p hp
      simp only [List.zip_cons_cons, List.mem_cons] at hp
      rcases hp with rfl | hp
      · exact ⟨hmonoR _ hbound1, hchars1⟩
      · exact hmemR p hp

/-- C8: string interning.  Starting from any well-formed heap, any sequence
of string constructions — copyString (copy from borrowed bytes) or takeString
(take ownership of the buffer), in any combination — returns identical
ObjString references for equal byte sequences; and takeString frees the
incoming buffer exactly when it returns an existing interned string (in which
case the heap is unchanged). -/
theorem C8_interning_spec (st : StringHeap) (hwf : HeapWF st)
    (reqs : List (Bool × List Nat)) :
    (∀ p1 ∈ (runConstructions st reqs).1.zip reqs,
      ∀ p2 ∈ (runConstructions st reqs).1.zip reqs,
        p1.2.2 = p2.2.2 → p1.1 = p2.1) ∧
      (∀ (c : List Nat) (s : ObjString),
        tableFindString st.strings c (hashString c) = some s →
          takeString st c = (s, true, st)) ∧
      (∀ c : List Nat, tableFindString st.strings c (hashString c) = none →
        (takeString st c).2.1 = false) := by
  obtain ⟨hwfR, _, hmem⟩ := runConstructions_wf hwf reqs
  refine ⟨?_, ?_, ?_⟩
  · intro p1 hp1 p2 hp2 hcc
    obtain ⟨hb1, hc1⟩ := hmem p1 hp1
    obtain ⟨hb2, hc2⟩ := hmem p2 hp2
    refine hwfR.contentUniq p1.1 p2.1 hb1 hb2 ?_
    rw [hc1, hc2, hcc]
  · intro c s hf
    simp only [takeString]
    rw [hf]
  · intro c hf
    simp only [takeString]
    rw [hf]

/-- Witness for C8 at a concrete input: the empty heap, a copyString of the
bytes "hi" followed by a takeString of the same bytes. -/
theorem C8_interning_spec_witness :
    (∀ p1 ∈ (runConstructions ⟨initTable, 0⟩
        [(false, [104, 105]), (true, [104, 105])]).1.zip
          [(false, [104, 105]), (true, [104, 105])],
      ∀ p2 ∈ (runConstructions ⟨initTable, 0⟩
        [(false, [104, 105]), (true, [104, 105])]).1.zip
          [(false, [104, 105]), (true, [104, 105])],
        p1.2.2 = p2.2.2 → p1.1 = p2.1) ∧
      (∀ (c : List Nat) (s : ObjString),
        tableFindString initTable c (hashString c) = some s →
          takeString ⟨initTable, 0⟩ c = (s, true, ⟨initTable, 0⟩)) ∧
      (∀ c : List Nat, tableFindString initTable c (hashString c) = none →
        (takeString ⟨initTable, 0⟩ c).2.1 = false) :=
  C8_interning_spec ⟨initTable, 0⟩ heapWF_init [(false, [104, 105]), (true, [104, 105])]

/-! ### The garbage collector (memory.c): marking, tracing, sweeping -/

namespace GC

/-- Heap object identity (the pointer). -/
abbrev ObjId := Nat

/-- A Value as the collector sees it (markValue of memory.c): only the obj
variant carries a heap reference. -/
inductive GValue where
  | nil : GValue
  | boolean : Bool → GValue
  | number : Int → GValue
  | ref : ObjId → GValue
deriving DecidableEq, Repr

/-- Heap objects with the fields that blackenObject dereferences.  Class,
Instance and BoundMethod carry the references the spec says blackening must
mark: the class name and methods-table entries, the instance class and
fields-table entries, the receiver and method closure. -/
inductive GCObj where
  | ostring : GCObj
  | onative : GCObj
  | ofunction : (name : Option ObjId) → (constants : List GValue) → GCObj
  | oclosure : (function : ObjId) → (upvalues : List (Option ObjId)) → GCObj
  | oupvalue : (closed : GValue) → GCObj
  | oklass : (name : ObjId) → (methods : List (ObjId × GValue)) → GCObj
  | oinstance : (klass : ObjId) → (fields : List (ObjId × GValue)) → GCObj
  | oboundMethod : (receiver : GValue) → (method : ObjId) → GCObj
deriving DecidableEq, Repr

/-- markValue of memory.c skips every value that is not a heap object. -/
def valueRef : GValue → Option ObjId
  | GValue.ref o => some o
  | _ => none

/-- blackenObject of memory.c: the references that blackening an object marks,
in source order.  The switch has cases only for OBJ_CLOSURE (its function and
every upvalue), OBJ_FUNCTION (its name and every constant), OBJ_UPVALUE (its
closed slot), and the OBJ_NATIVE / OBJ_STRING leaves.  There is no case for
OBJ_CLASS, OBJ_INSTANCE or OBJ_BOUND_METHOD, and the switch has no default:
the C control flow falls past the switch and such an object marks nothing. -/
def blackenRefs : GCObj → List ObjId
  | GCObj.oclosure f ups => f :: ups.filterMap id
  | GCObj.ofunction name constants => name.toList ++ constants.filterMap valueRef
  | GCObj.oupvalue closed => (valueRef closed).toList
  | GCObj.onative => []
  | GCObj.ostring => []
  | GCObj.oklass _ _ => []
  | GCObj.oinstance _ _ => []
  | GCObj.oboundMethod _ _ => []

/-- markObject of memory.c: skip NULL (callers pass no reference at all here)
and already-marked objects; otherwise set the mark bit and push the object on
the gray stack.  The mark bits are the `marked` list. -/
def markObject (marked gray : List ObjId) (o : ObjId) : List ObjId × List ObjId :=
  if o ∈ marked then (marked, gray) else (o :: marked, o :: gray)

/-- markValue of memory.c. -/
def markValue (marked gray : List ObjId) (v : GValue) : List ObjId × List ObjId :=
  match valueRef v with
  | none => (marked, gray)
  | some o => markObject marked gray o

/-- traceReferences of memory.c: while the gray stack is non-empty, pop an
object and blacken it, marking every object it references.  Fuel bounds the
number of pops; every concrete run below stays within it. -/
def traceReferences (heap : List (ObjId × GCObj)) :
    Nat → List ObjId → List ObjId → List ObjId
  | 0, marked, _ => marked
  | fuel + 1, marked, gray =>
    match gray with
    | [] => marked
    | o :: rest =>
      let refs :=
        match heap.lookup o with
        | some obj => blackenRefs obj
        | none => []
      let r := refs.foldl (fun acc rr => markObject acc.1 acc.2 rr) (marked, rest)
      traceReferences heap fuel r.1 r.2

/-- The VM state markRoots of memory.c reads: the value stack, the call-frame
closures, the open-upvalue list, the globals table entries, the vm.strings
intern entries (weak: only swept, never marked), the interned init string
pointer, and the compiler-chain functions. -/
structure GCVm where
  stack : List GValue
  frameClosures : List ObjId
  openUpvalues : List ObjId
  globals : List (Option ObjId × GValue)
  strings : List (Option ObjId × GValue)
  initString : Option ObjId
  compilerFunctions : List ObjId

/-- markRoots of memory.c, in source order: every stack Value, every frame
closure, every open upvalue, markTable(&vm.globals) (each entry's key and
value), then markCompilerRoots (every function on the compiler chain).  The
source contains no markObject call for vm.initString. -/
def markRoots (vm : GCVm) : List ObjId × List ObjId :=
  let r0 := vm.stack.foldl (fun acc v => markValue acc.1 acc.2 v) ([], [])
  let r1 := vm.frameClosures.foldl (fun acc o => markObject acc.1 acc.2 o) r0
  let r2 := vm.openUpvalues.foldl (fun acc o => markObject acc.1 acc.2 o) r1
  let r3 := vm.globals.foldl (fun acc e =>
    let a :=
      match e.1 with
      | none => acc
      | some k => markObject acc.1 acc.2 k
    markValue a.1 a.2 e.2) r2
  vm.compilerFunctions.foldl (fun acc o => markObject acc.1 acc.2 o) r3

/-- tableRemoveWhite of table.c applied to vm.strings: every entry whose key
is unmarked is tableDeleted, leaving a tombstone. -/
def removeWhite (strings : List (Option ObjId × GValue)) (marked : List ObjId) :
    List (Option ObjId × GValue) :=
  strings.map (fun e =>
    match e.1 with
    | none => e
    | some k => if k ∈ marked then e else (none, GValue.boolean true))

/-- sweep of memory.c: free (drop) every object whose mark bit is clear. -/
def sweep (heap : List (ObjId × GCObj)) (marked : List ObjId) : List (ObjId × GCObj) :=
  heap.filter (fun p => decide (p.1 ∈ marked))

/-- collectGarbage of memory.c: markRoots, traceReferences,
tableRemoveWhite(&vm.strings), sweep.  Returns the surviving heap and the
pruned intern entries. -/
def collectGarbage (vm : GCVm) (heap : List (ObjId × GCObj)) (fuel : Nat) :
    List (ObjId × GCObj) × List (Option ObjId × GValue) :=
  let r := markRoots vm
  let marked := traceReferences heap fuel r.1 r.2
  (sweep heap marked, removeWhite vm.strings marked)

/-- A heap exercising the class, instance and bound-method variants: a rooted
instance 0 of class 1 with a field string 2 holding string 3; class 1 with
name 4 and a method named 5 bound to closure 6 over function 7; a rooted
bound method 8 whose receiver is instance 0 and whose method is closure 6. -/
def testHeap : List (ObjId × GCObj) :=
  [(0, GCObj.oinstance 1 [(2, GValue.ref 3)]),
   (1, GCObj.oklass 4 [(5, GValue.ref 6)]),
   (2, GCObj.ostring), (3, GCObj.ostring), (4, GCObj.ostring), (5, GCObj.ostring),
   (6, GCObj.oclosure 7 []),
   (7, GCObj.ofunction none []),
   (8, GCObj.oboundMethod (GValue.ref 0) 6)]

/-- A VM whose only roots are the instance 0 and the bound method 8. -/
def testVm : GCVm :=
  ⟨[GValue.ref 0, GValue.ref 8], [], [], [], [], none, []⟩

end GC

/-- C1: refuted on the code.  blackenObject in memory.c marks nothing for a
Class, an Instance or a BoundMethod (its switch has no case for those
variants), so a collection frees every object reachable only through them:
with a reachable instance and bound method as roots, the instance's class
(with its name and methods) and the bound method's closure are all swept
while the instance and bound method survive with dangling references. -/
theorem C1_blacken_ignores_classes :
    GC.blackenRefs (GC.GCObj.oklass 4 [(5, GC.GValue.ref 6)]) = [] ∧
      GC.blackenRefs (GC.GCObj.oinstance 1 [(2, GC.GValue.ref 3)]) = [] ∧
      GC.blackenRefs (GC.GCObj.oboundMethod (GC.GValue.ref 0) 6) = [] ∧
      (GC.collectGarbage GC.testVm GC.testHeap 20).1
        = [(0, GC.GCObj.oinstance 1 [(2, GC.GValue.ref 3)]),
           (8, GC.GCObj.oboundMethod (GC.GValue.ref 0) 6)] ∧
      (1, GC.GCObj.oklass 4 [(5, GC.GValue.ref 6)]) ∈ GC.testHeap ∧
      (1, GC.GCObj.oklass 4 [(5, GC.GValue.ref 6)])
        ∉ (GC.collectGarbage GC.testVm GC.testHeap 20).1 := by
  refine ⟨rfl, rfl, rfl, ?_, ?_, ?_⟩ <;> decide

/-- A VM with every root category populated — a stack value (10), a frame
closure (11), an open upvalue (12), a globals entry (key 13, value 14), a
compiler-chain function (15) — and the interned init string 9, which is
reachable only through vm.initString and the (weak) intern table. -/
def initRootsVm : GC.GCVm :=
  ⟨[GC.GValue.ref 10], [11], [12], [(some 13, GC.GValue.ref 14)],
    [(some 9, GC.GValue.nil)], some 9, [15]⟩

/-- The heap matching initRootsVm. -/
def initRootsHeap : List (GC.ObjId × GC.GCObj) :=
  [(9, GC.GCObj.ostring),
   (10, GC.GCObj.ostring),
   (11, GC.GCObj.oclosure 10 []),
   (12, GC.GCObj.oupvalue GC.GValue.nil),
   (13, GC.GCObj.ostring), (14, GC.GCObj.ostring),
   (15, GC.GCObj.ofunction none [])]

/-- C5: refuted on the code.  markRoots in memory.c marks the value stack,
the frame closures, the open upvalues, every key and value of the globals
table, and the compiler-chain functions — but it contains no call marking
vm.initString.  With every other root category populated, the init string is
not marked; the following collection prunes it from the (weak) intern table
and sweeps it, so vm.initString dangles, contradicting the claim that the
interned init string is always marked as a root and survives every
collection. -/
theorem C5_init_string_not_rooted :
    (∀ o ∈ [10, 11, 12, 13, 14, 15], o ∈ (GC.markRoots initRootsVm).1) ∧
      9 ∉ (GC.markRoots initRootsVm).1 ∧
      initRootsVm.initString = some 9 ∧
      (9, GC.GCObj.ostring) ∈ initRootsHeap ∧
      (9, GC.GCObj.ostring) ∉ (GC.collectGarbage initRootsVm initRootsHeap 30).1 ∧
      (GC.collectGarbage initRootsVm initRootsHeap 30).2
        = [(none, GC.GValue.boolean true)] := by
  refine ⟨?_, ?_, rfl, ?_, ?_, ?_⟩ <;> decide

/-! ### The scanner (scanner.c) -/

namespace Scanner

/-- TokenType of scanner.h. -/
inductive TokenType where
  | leftParen : TokenType
  | rightParen : TokenType
  | leftBrace : TokenType
  | rightBrace : TokenType
  | comma : TokenType
  | dot : TokenType
  | minus : TokenType
  | plus : TokenType
  | semicolon : TokenType
  | slash : TokenType
  | star : TokenType
  | bang : TokenType
  | bangEqual : TokenType
  | equal : TokenType
  | equalEqual : TokenType
  | greater : TokenType
  | greaterEqual : TokenType
  | less : TokenType
  | lessEqual : TokenType
  | identifier : TokenType
  | strTok : TokenType
  | number : TokenType
  | andTok : TokenType
  | classTok : TokenType
  | elseTok : TokenType
  | falseTok : TokenType
  | forTok : TokenType
  | funTok : TokenType
  | ifTok : TokenType
  | nilTok : TokenType
  | orTok : TokenType
  | printTok : TokenType
  | returnTok : TokenType
  | superTok : TokenType
  | thisTok : TokenType
  | trueTok : TokenType
  | varTok : TokenType
  | whileTok : TokenType
  | error : TokenType
  | eof : TokenType
deriving DecidableEq, Repr

/-- The scanner state of scanner.c: the borrowed source (a NUL-free character
buffer; the C NUL terminator becomes the end of the list), the lexeme start
and current cursors, and the current line. -/
structure ScanState where
  source : List Char
  start : Nat
  current : Nat
  line : Nat
deriving DecidableEq, Repr

/-- initScanner of scanner.c. -/
def initScanner (source : List Char) : ScanState := ⟨source, 0, 0, 1⟩

/-- The NUL character read past the end of the buffer. -/
def nulChar : Char := Char.ofNat 0

/-- isAtEnd of scanner.c: *current == NUL. -/
def isAtEnd (sc : ScanState) : Bool := sc.source.length ≤ sc.current

/-- peek of scanner.c. -/
def peekCh (sc : ScanState) : Char := sc.source.getD sc.current nulChar

/-- peekNext of scanner.c. -/
def peekNextCh (sc : ScanState) : Char :=
  if isAtEnd sc then nulChar else sc.source.getD (sc.current + 1) nulChar

/-- advance of scanner.c (the consumed character is peekCh). -/
def advanceSc (sc : ScanState) : ScanState :=
  { sc with current := sc.current + 1 }

/-- match of scanner.c: conditionally consume the expected character. -/
def matchCh (sc : ScanState) (expected : Char) : Bool × ScanState :=
  if isAtEnd sc then (false, sc)
  else if peekCh sc ≠ expected then (false, sc)
  else (true, advanceSc sc)

/-- A token (Token of scanner.h): kind, lexeme slice, line.  An error token
carries its static message as the slice. -/
structure Token where
  type : TokenType
  text : List Char
  line : Nat
deriving DecidableEq, Repr

/-- makeToken of scanner.c. -/
def makeToken (sc : ScanState) (t : TokenType) : Token :=
  ⟨t, (sc.source.drop sc.start).take (sc.current - sc.start), sc.line⟩

/-- errorToken of scanner.c. -/
def errorToken (sc : ScanState) (message : List Char) : Token :=
  ⟨TokenType.error, message, sc.line⟩

/-- isAlpha of scanner.c. -/
def isAlphaCh (c : Char) : Bool :=
  ('a' ≤ c ∧ c ≤ 'z') ∨ ('A' ≤ c ∧ c ≤ 'Z') ∨ c = '_'

/-- isDigit of scanner.c. -/
def isDigitCh (c : Char) : Bool := '0' ≤ c ∧ c ≤ '9'

/-- The comment sub-loop of skipWhitespace: while (peek != newline and not at
end) advance. -/
def skipComment : Nat → ScanState → ScanState
  | 0, sc => sc
  | fuel + 1, sc =>
    if peekCh sc ≠ '\n' ∧ isAtEnd sc = false then skipComment fuel (advanceSc sc)
    else sc

/-- skipWhitespace of scanner.c, exactly as written: spaces, carriage returns
and tabs are consumed; a newline bumps the line counter; on two slashes the
comment body is consumed up to (not including) the newline — and then,
because the case has no break, control falls into the default case and the
function returns instead of continuing the outer loop. -/
def skipWhitespace : Nat → ScanState → ScanState
  | 0, sc => sc
  | fuel + 1, sc =>
    let c := peekCh sc
    if c = ' ' ∨ c = '\r' ∨ c = '\t' then
      skipWhitespace fuel (advanceSc sc)
    else if c = '\n' then
      skipWhitespace fuel (advanceSc { sc with line := sc.line + 1 })
    else if c = '/' then
      if peekNextCh sc = '/' then skipComment fuel sc
      else sc
    else sc

/-- checkKeyword of scanner.c. -/
def checkKeyword (sc : ScanState) (st len : Nat) (rest : List Char) (t : TokenType) :
    TokenType :=
  if sc.current - sc.start = st + len ∧
      (sc.source.drop (sc.start + st)).take len = rest then t
  else TokenType.identifier

/-- identifierType of scanner.c: the hand-rolled keyword trie. -/
def identifierType (sc : ScanState) : TokenType :=
  let c0 := sc.source.getD sc.start nulChar
  if c0 = 'a' then checkKeyword sc 1 2 [ 'n', 'd'] TokenType.andTok
  else if c0 = 'c' then checkKeyword sc 1 4 [ 'l', 'a', 's', 's'] TokenType.classTok
  else if c0 = 'e' then checkKeyword sc 1 3 [ 'l', 's', 'e'] TokenType.elseTok
  else if c0 = 'f' then
    if 1 < sc.current - sc.start then
      let c1 := sc.source.getD (sc.start + 1) nulChar
      if c1 = 'a' then checkKeyword sc 2 3 [ 'l', 's', 'e'] TokenType.falseTok
      else if c1 = 'o' then checkKeyword sc 2 1 [ 'r'] TokenType.forTok
      else if c1 = 'u' then checkKeyword sc 2 1 [ 'n'] TokenType.funTok
      else TokenType.identifier
    else TokenType.identifier
  else if c0 = 'i' then checkKeyword sc 1 1 [ 'f'] TokenType.ifTok
  else if c0 = 'n' then checkKeyword sc 1 2 [ 'i', 'l'] TokenType.nilTok
  else if c0 = 'o' then checkKeyword sc 1 1 [ 'r'] TokenType.orTok
  else if c0 = 'p' then checkKeyword sc 1 4 [ 'r', 'i', 'n', 't'] TokenType.printTok
  else if c0 = 'r' then checkKeyword sc 1 5 [ 'e', 't', 'u', 'r', 'n'] TokenType.returnTok
  else if c0 = 's' then checkKeyword sc 1 4 [ 'u', 'p', 'e', 'r'] TokenType.superTok
  else if c0 = 't' then
    if 1 < sc.current - sc.start then
      let c1 := sc.source.getD (sc.start + 1) nulChar
      if c1 = 'h' then checkKeyword sc 2 2 [ 'i', 's'] TokenType.thisTok
      else if c1 = 'r' then checkKeyword sc 2 2 [ 'u', 'e'] TokenType.trueTok
      else TokenType.identifier
    else TokenType.identifier
  else if c0 = 'v' then checkKeyword sc 1 2 [ 'a', 'r'] TokenType.varTok
  else if c0 = 'w' then checkKeyword sc 1 4 [ 'h', 'i', 'l', 'e'] TokenType.whileTok
  else TokenType.identifier

/-- identifier of scanner.c: consume the alphanumeric run, then classify. -/
def identifierToken : Nat → ScanState → Token × ScanState
  | 0, sc => (makeToken sc (identifierType sc), sc)
  | fuel + 1, sc =>
    if isAlphaCh (peekCh sc) ∨ isDigitCh (peekCh sc) then
      identifierToken fuel (advanceSc sc)
    else (makeToken sc (identifierType sc), sc)

/-- The digit-consuming loop of number in scanner.c. -/
def digits : Nat → ScanState → ScanState
  | 0, sc => sc
  | fuel + 1, sc => if isDigitCh (peekCh sc) then digits fuel (advanceSc sc) else sc

/-- number of scanner.c. -/
def numberToken (fuel : Nat) (sc : ScanState) : Token × ScanState :=
  let sc := digits fuel sc
  let sc :=
    if peekCh sc = '.' ∧ isDigitCh (peekNextCh sc) then digits fuel (advanceSc sc)
    else sc
  (makeToken sc TokenType.number, sc)

/-- The body-consuming loop of string in scanner.c (newlines inside the
literal bump the line counter). -/
def stringBody : Nat → ScanState → ScanState
  | 0, sc => sc
  | fuel + 1, sc =>
    if peekCh sc ≠ '"' ∧ isAtEnd sc = false then
      if peekCh sc = '\n' then stringBody fuel (advanceSc { sc with line := sc.line + 1 })
      else stringBody fuel (advanceSc sc)
    else sc

/-- string of scanner.c. -/
def stringToken (fuel : Nat) (sc : ScanState) : Token × ScanState :=
  let sc := stringBody fuel sc
  if isAtEnd sc then (errorToken sc ("Unterminated string.".toList), sc)
  else
    let sc := advanceSc sc
    (makeToken sc TokenType.strTok, sc)

/-- scanToken of scanner.c. -/
def scanToken (fuel : Nat) (sc0 : ScanState) : Token × ScanState :=
  let sc1 := skipWhitespace fuel sc0
  let sc := { sc1 with start := sc1.current }
  if isAtEnd sc then (makeToken sc TokenType.eof, sc)
  else
    let c := peekCh sc
    let sc := advanceSc sc
    if isAlphaCh c then identifierToken fuel sc
    else if isDigitCh c then numberToken fuel sc
    else if c = '(' then (makeToken sc TokenType.leftParen, sc)
    else if c = ')' then (makeToken sc TokenType.rightParen, sc)
    else if c = '{' then (makeToken sc TokenType.leftBrace, sc)
    else if c = '}' then (makeToken sc TokenType.rightBrace, sc)
    else if c = ';' then (makeToken sc TokenType.semicolon, sc)
    else if c = ',' then (makeToken sc TokenType.comma, sc)
    else if c = '.' then (makeToken sc TokenType.dot, sc)
    else if c = '-' then (makeToken sc TokenType.minus, sc)
    else if c = '+' then (makeToken sc TokenType.plus, sc)
    else if c = '/' then (makeToken sc TokenType.slash, sc)
    else if c = '*' then (makeToken sc TokenType.star, sc)
    else if c = '!' then
      let m := matchCh sc '='
      (makeToken m.2 (if m.1 then TokenType.bangEqual else TokenType.bang), m.2)
    else if c = '=' then
      let m := matchCh sc '='
      (makeToken m.2 (if m.1 then TokenType.equalEqual else TokenType.equal), m.2)
    else if c = '<' then
      let m := matchCh sc '='
      (makeToken m.2 (if m.1 then TokenType.lessEqual else TokenType.less), m.2)
    else if c = '>' then
      let m := matchCh sc '='
      (makeToken m.2 (if m.1 then TokenType.greaterEqual else TokenType.greater), m.2)
    else if c = '"' then stringToken fuel sc
    else (errorToken sc ("Unexpected character".toList), sc)

end Scanner

/-- C4: refuted on the code.  After a // comment, the comment arm of
skipWhitespace in scanner.c has no break and falls into the default return,
so the function returns with the cursor on the terminating newline instead of
looping.  scanToken then consumes that newline through its operator switch,
which has no case for a newline, and returns the static Unexpected-character
ERROR token; the line counter is never advanced, so the following token is
also reported on the comment's line.  The claim says the next token is
scanned from after the end of the line, with the newline only advancing the
line counter and no ERROR token produced. -/
theorem C4_comment_produces_error_token :
    (Scanner.scanToken 100 (Scanner.initScanner "//c\nx".toList)).1
        = ⟨Scanner.TokenType.error, "Unexpected character".toList, 1⟩ ∧
      (Scanner.scanToken 100
          (Scanner.scanToken 100 (Scanner.initScanner "//c\nx".toList)).2).1
        = ⟨Scanner.TokenType.identifier, [ 'x'], 1⟩ := by
  constructor
  · rfl
  · rfl

/-! ### Panic-mode synchronization (compiler.c synchronize) -/

/-- The parser state synchronize reads: previous and current token kinds, the
panic flag, and the not-yet-scanned remainder of the token stream (which the
source's synchronize never touches, since its loop contains no advance
call). -/
structure ParserState where
  previous : Scanner.TokenType
  current : Scanner.TokenType
  panicMode : Bool
  rest : List Scanner.TokenType
deriving DecidableEq, Repr

/-- The statement-starter keywords of synchronize's switch. -/
def isStatementStarter (t : Scanner.TokenType) : Bool :=
  t = Scanner.TokenType.classTok ∨ t = Scanner.TokenType.funTok ∨
    t = Scanner.TokenType.varTok ∨ t = Scanner.TokenType.forTok ∨
    t = Scanner.TokenType.ifTok ∨ t = Scanner.TokenType.whileTok ∨
    t = Scanner.TokenType.printTok ∨ t = Scanner.TokenType.returnTok

/-- The while loop of synchronize in compiler.c, exactly as written: exit on
EOF, return when the previous token is a semicolon or the current token is a
statement starter; otherwise the default arm does nothing and the loop runs
again on the identical parser state — the source contains no advance() call.
The fuel counts iterations; `none` means the loop has not returned within the
given fuel (and, since the state never changes, never will). -/
def syncLoop : Nat → ParserState → Option ParserState
  | 0, _ => none
  | fuel + 1, p =>
    if p.current = Scanner.TokenType.eof then some p
    else if p.previous = Scanner.TokenType.semicolon then some p
    else if isStatementStarter p.current then some p
    else syncLoop fuel p

/-- synchronize of compiler.c: clear panic mode, then loop. -/
def synchronize (fuel : Nat) (p : ParserState) : Option ParserState :=
  syncLoop fuel { p with panicMode := false }

/-- C3: refuted on the code.  synchronize's loop body never calls advance, so
on a state whose current token is not EOF or a statement starter and whose
previous token is not a semicolon, the loop repeats on the identical state
forever — no amount of fuel makes it return, even though the unconsumed
stream holds a semicolon and EOF.  And when synchronize does return, it has
consumed nothing: previous, current and the remaining stream are unchanged
(only panic mode is cleared), refuting the claim that it terminates for every
token stream by discarding the intervening tokens. -/
theorem C3_synchronize_diverges :
    (∀ fuel, synchronize fuel
        ⟨Scanner.TokenType.comma, Scanner.TokenType.number, true,
          [Scanner.TokenType.semicolon, Scanner.TokenType.eof]⟩ = none) ∧
      (∀ fuel p p2, synchronize fuel p = some p2 →
        p2.previous = p.previous ∧ p2.current = p.current ∧ p2.rest = p.rest ∧
          p2.panicMode = false) := by
  constructor
  · intro fuel
    induction fuel with
    | zero => rfl
    | succ n ih =>
      unfold synchronize at ih ⊢
      rw [syncLoop]
      exact ih
  · intro fuel p p2 h
    unfold synchronize at h
    induction fuel with
    | zero => exact Option.noConfusion h
    | succ n ih =>
      rw [syncLoop] at h
      by_cases h1 : ({ p with panicMode := false } : ParserState).current
          = Scanner.TokenType.eof
      · rw [if_pos h1] at h
        obtain rfl : ({ p with panicMode := false } : ParserState) = p2 := by
          cases h
          rfl
        exact ⟨rfl, rfl, rfl, rfl⟩
      · rw [if_neg h1] at h
        by_cases h2 : ({ p with panicMode := false } : ParserState).previous
            = Scanner.TokenType.semicolon
        · rw [if_pos h2] at h
          obtain rfl : ({ p with panicMode := false } : ParserState) = p2 := by
            cases h
            rfl
          exact ⟨rfl, rfl, rfl, rfl⟩
        · rw [if_neg h2] at h
          by_cases h3 : isStatementStarter
              ({ p with panicMode := false } : ParserState).current = true
          · rw [if_pos h3] at h
            obtain rfl : ({ p with panicMode := false } : ParserState) = p2 := by
              cases h
              rfl
            exact ⟨rfl, rfl, rfl, rfl⟩
          · rw [if_neg h3] at h
            exact ih h

/-- Witness for C3 at concrete inputs: ten iterations on the stuck state
return nothing, and a returning state comes back unconsumed. -/
theorem C3_synchronize_diverges_witness :
    synchronize 10
        ⟨Scanner.TokenType.comma, Scanner.TokenType.number, true,
          [Scanner.TokenType.semicolon, Scanner.TokenType.eof]⟩ = none ∧
      (⟨Scanner.TokenType.semicolon, Scanner.TokenType.number, false,
          [Scanner.TokenType.eof]⟩ : ParserState).previous
        = (⟨Scanner.TokenType.semicolon, Scanner.TokenType.number, true,
            [Scanner.TokenType.eof]⟩ : ParserState).previous :=
  ⟨C3_synchronize_diverges.1 10,
    (C3_synchronize_diverges.2 1
      ⟨Scanner.TokenType.semicolon, Scanner.TokenType.number, true,
        [Scanner.TokenType.eof]⟩
      ⟨Scanner.TokenType.semicolon, Scanner.TokenType.number, false,
        [Scanner.TokenType.eof]⟩ rfl).1⟩

/-- A concrete native function for exercising callValue. -/
def witnessNative : Nat → Nat → List Value → Value := fun _ n _ => Value.number n

/-- A concrete call state: stack [1, 2] (top first), no frames. -/
def witnessCallState : CallState := ⟨[Value.number 1, Value.number 2], [], 0⟩

/-- Witness for C9 at a concrete input: a native callee with one argument on
a two-value stack. -/
theorem C9_native_call_spec_witness :
    callValue witnessNative (fun _ => initTable) ⟨0, [], 0⟩ witnessCallState
        (Value.obj (ObjPayload.native 3)) 1
        = CallResult.ok
            ⟨witnessNative 3 1 ((witnessCallState.stack.take 1).reverse)
                :: witnessCallState.stack.drop 2,
              witnessCallState.frames, witnessCallState.nextObj⟩ ∧
      (∀ e, callValue witnessNative (fun _ => initTable) ⟨0, [], 0⟩ witnessCallState
          (Value.obj (ObjPayload.native 3)) 1 ≠ CallResult.err e) ∧
      (∀ st2, callValue witnessNative (fun _ => initTable) ⟨0, [], 0⟩ witnessCallState
            (Value.obj (ObjPayload.native 3)) 1 = CallResult.ok st2 →
          st2.frames = witnessCallState.frames ∧
          st2.stack = witnessNative 3 1 ((witnessCallState.stack.take 1).reverse)
              :: witnessCallState.stack.drop 2) :=
  C9_native_call_spec witnessNative (fun _ => initTable) ⟨0, [], 0⟩ witnessCallState 3 1

end Clox
